import Mathlib

/-!
Verification development for the toolpath synthesis engine of the
`cnc_plotter` repository (`app/gcode_generator.py`).

The Python source is shallowly embedded as follows.

* A pixel point is a pair of integers (`Pt`).  The image raster is a
  structure carrying a width, a height and a pixel function; the value `0`
  marks ink, exactly as `pixels[x, y] == 0` does in the source.
* All coordinate arithmetic of the source is carried out over `ℚ`
  (the Python source uses IEEE floats; the rational embedding is the exact
  idealisation of those formulas).  Comparisons of square roots that the
  source performs on floats (`perpendicular_distance`, the residual test of
  `fit_arc`, the k-d tree distance bound) are embedded by algebraically
  equivalent rational comparisons of squared quantities; the equivalences
  are proved against `Real.sqrt` where a claim depends on them.
* `scipy.spatial.KDTree.query(point, k, distance_upper_bound)` is an
  external library call; following the specification's Spatial Index
  contract it is embedded as: all indices whose point lies within the
  distance bound, ordered by ascending distance with ties broken by
  original index, truncated to `k`.
* The recursion of `ramer_douglas_peucker` is embedded with an explicit
  fuel argument (the wrapper passes the list length, which is always
  sufficient fuel for the recursion depth of the source algorithm).
* `np.linalg.solve` on the 2×2 normal-equations system raises
  `LinAlgError` exactly on a singular matrix; this is embedded as a
  determinant test with the solution written by Cramer's rule, which is
  the unique solution the source obtains in the nonsingular case.
* The analyzer `analyze_gcode` accumulates real distances (`sqrt`,
  `asin`); it is embedded over `ℝ`.
-/

namespace Cnc

/-- A pixel point `(x, y)`, as produced by the raster scan of
`generate_kdtree_gcode`. -/
abbrev Pt := ℤ × ℤ

/-- Junk default used for the total embeddings of Python's partial list
indexing (never reached on the executed paths). -/
def pt0 : Pt := (0, 0)

/-! ### Configuration constants (`app/config.py`) -/

/-- `config.RDP_EPSILON = 2.0`. -/
def RDP_EPSILON : ℚ := 2

/-- `config.ARC_FITTING_TOLERANCE = 1.0`. -/
def ARC_FITTING_TOLERANCE : ℚ := 1

/-- `config.SEARCH_RADIUS_MM = 5.0`. -/
def SEARCH_RADIUS_MM : ℚ := 5

/-- `config.PLOTTER_WIDTH_MM = 115.0`. -/
def PLOTTER_WIDTH_MM : ℚ := 115

/-- `config.PLOTTER_HEIGHT_MM = 115.0`. -/
def PLOTTER_HEIGHT_MM : ℚ := 115

/-! ### `perpendicular_distance` and `ramer_douglas_peucker`

Source, lines 76–97.  `perpendicular_distance(point, line_start, line_end)`
returns `num / den` where `num = |(y2-y1)x0 - (x2-x1)y0 + x2*y1 - y2*x1|`
and `den = sqrt((y2-y1)^2 + (x2-x1)^2)`, falling back to the Euclidean
distance from `point` to `line_start` when `den == 0`.

Within one call of `ramer_douglas_peucker` every distance shares the same
`line_start`/`line_end`, hence the same `den`.  Comparisons `d > dmax`
between such distances are therefore equivalent to integer comparisons of
`num` (when `den ≠ 0`) respectively of the squared Euclidean distance
(when `den = 0`); that integer is `pdScore` below.  The single comparison
`dmax > epsilon` against the rational epsilon is `scoreGtEps`. -/

/-- Numerator `|(y2-y1)*x0 - (x2-x1)*y0 + x2*y1 - y2*x1|` of
`perpendicular_distance`. -/
def pdNum (p s e : Pt) : ℤ :=
  |(e.2 - s.2) * p.1 - (e.1 - s.1) * p.2 + e.1 * s.2 - e.2 * s.1|

/-- Square of the denominator `sqrt((y2-y1)^2 + (x2-x1)^2)` of
`perpendicular_distance`. -/
def pdDenSq (s e : Pt) : ℤ := (e.2 - s.2) ^ 2 + (e.1 - s.1) ^ 2

/-- Squared Euclidean distance between two pixel points. -/
def distSqZ (p q : Pt) : ℤ := (p.1 - q.1) ^ 2 + (p.2 - q.2) ^ 2

/-- Order-faithful integer representative of
`perpendicular_distance p s e`: within a fixed call (fixed `s`, `e`) the
map from score to true distance is strictly monotone, and score `0`
corresponds to distance `0`. -/
def pdScore (s e p : Pt) : ℤ :=
  if pdDenSq s e = 0 then distSqZ p s else pdNum p s e

/-- Decides `dmax > epsilon`, where `dmax` is the distance represented by
the score `sc` (relative to a call with denominator square `denSq`). -/
def scoreGtEps (denSq sc : ℤ) (eps : ℚ) : Bool :=
  if eps < 0 then true
  else if denSq = 0 then decide (eps ^ 2 < (sc : ℚ))
  else decide (eps ^ 2 * (denSq : ℚ) < (sc : ℚ) ^ 2)

/-- The loop of `ramer_douglas_peucker` computing `dmax, index`:
`for i in range(1, len(l) - 1): d = pd(l[i], start, end); if d > dmax:
index, dmax = i, d`, started from `index, dmax = 0, 0`, with distances
represented by scores. -/
def rdpStep (l : List Pt) : ℕ × ℤ :=
  ((List.range (l.length - 2)).map (· + 1)).foldl
    (fun acc i =>
      let d := pdScore (l.headD pt0) (l.getLastD pt0) (l.getD i pt0)
      if acc.2 < d then (i, d) else acc)
    (0, 0)

/-- Totalisation of `ramer_douglas_peucker` with explicit recursion
fuel.  CAUTION: the source function is not total — for `epsilon < 0`
with every interior point on the chord the loop leaves `index = 0`,
`dmax = 0`, the test `0 > epsilon` passes, and
`ramer_douglas_peucker(point_list[0:])` recurses on the identical list
forever (Python raises `RecursionError`).  The fuel-0 case below
returns the remaining list, so this totalisation fabricates a value on
that error path; `rdpRun` below models the partial behaviour exactly,
and `rdpRun_succ_eq` proves that for `0 ≤ epsilon` — where a passing
test forces `index ≥ 1` and both sub-lists shrink — fuel `l.length`
is sufficient and this totalisation equals the source computation. -/
def rdpFuel : ℕ → List Pt → ℚ → List Pt
  | 0, l, _ => l
  | fuel + 1, l, eps =>
    if l.length < 3 then l
    else
      let s := l.headD pt0
      let e := l.getLastD pt0
      let st := rdpStep l
      if scoreGtEps (pdDenSq s e) st.2 eps then
        (rdpFuel fuel (l.take (st.1 + 1)) eps).dropLast ++
          rdpFuel fuel (l.drop st.1) eps
      else [s, e]

/-- `ramer_douglas_peucker(point_list, epsilon)`, source lines 76–88. -/
def ramer_douglas_peucker (l : List Pt) (eps : ℚ) : List Pt :=
  rdpFuel l.length l eps

/-- The source recursion of `ramer_douglas_peucker` with its partiality
made explicit: `fuel` is the remaining call-depth budget (every
invocation consumes one unit), and `none` is the error path — the
recursion does not complete within that depth.  `∀ fuel, rdpRun fuel l
eps = none` therefore says the source recursion runs forever on `(l,
eps)` (Python: `RecursionError`). -/
def rdpRun : ℕ → List Pt → ℚ → Option (List Pt)
  | 0, _, _ => none
  | fuel + 1, l, eps =>
    if l.length < 3 then some l
    else
      let s := l.headD pt0
      let e := l.getLastD pt0
      let st := rdpStep l
      if scoreGtEps (pdDenSq s e) st.2 eps then
        match rdpRun fuel (l.take (st.1 + 1)) eps,
            rdpRun fuel (l.drop st.1) eps with
        | some r1, some r2 => some (r1.dropLast ++ r2)
        | _, _ => none
      else some [s, e]

/-- The source recursion of `ramer_douglas_peucker` exceeds every
call-depth budget on this input: it diverges (`RecursionError`). -/
def rdpDivergesAt (l : List Pt) (eps : ℚ) : Prop :=
  ∀ fuel, rdpRun fuel l eps = none

/-! ### `fit_arc` (source lines 11–73)

The least-squares circle fit.  `x_mean`, `y_mean`, the centred
coordinates `u, v` and the moment sums `Suu … Svuu` mirror the NumPy
computations literally (over `ℚ`).  `np.linalg.solve(A, B)` raises
`LinAlgError` exactly when `A` is singular; in the nonsingular case its
(unique) solution is written out by Cramer's rule. -/

/-- `x_mean = np.mean(x)`. -/
def x_mean (pts : List Pt) : ℚ :=
  (pts.map (fun p => (p.1 : ℚ))).sum / pts.length

/-- `y_mean = np.mean(y)`. -/
def y_mean (pts : List Pt) : ℚ :=
  (pts.map (fun p => (p.2 : ℚ))).sum / pts.length

/-- The centred coordinate pairs `(u, v) = (x - x_mean, y - y_mean)`. -/
def centered (pts : List Pt) : List (ℚ × ℚ) :=
  pts.map (fun p => ((p.1 : ℚ) - x_mean pts, (p.2 : ℚ) - y_mean pts))

/-- `Suu = np.sum(u**2)`. -/
def Suu (pts : List Pt) : ℚ := ((centered pts).map (fun q => q.1 ^ 2)).sum

/-- `Svv = np.sum(v**2)`. -/
def Svv (pts : List Pt) : ℚ := ((centered pts).map (fun q => q.2 ^ 2)).sum

/-- `Suv = np.sum(u * v)`. -/
def Suv (pts : List Pt) : ℚ := ((centered pts).map (fun q => q.1 * q.2)).sum

/-- `Suuu = np.sum(u**3)`. -/
def Suuu (pts : List Pt) : ℚ := ((centered pts).map (fun q => q.1 ^ 3)).sum

/-- `Svvv = np.sum(v**3)`. -/
def Svvv (pts : List Pt) : ℚ := ((centered pts).map (fun q => q.2 ^ 3)).sum

/-- `Suvv = np.sum(u * v**2)`. -/
def Suvv (pts : List Pt) : ℚ :=
  ((centered pts).map (fun q => q.1 * q.2 ^ 2)).sum

/-- `Svuu = np.sum(v * u**2)`. -/
def Svuu (pts : List Pt) : ℚ :=
  ((centered pts).map (fun q => q.2 * q.1 ^ 2)).sum

/-- Determinant of the normal-equations matrix
`A = [[Suu, Suv], [Suv, Svv]]`. -/
def detA (pts : List Pt) : ℚ := Suu pts * Svv pts - Suv pts ^ 2

/-- First component of `B = [-(Suuu + Suvv)/2, -(Svvv + Svuu)/2]`. -/
def Bvec1 (pts : List Pt) : ℚ := -(Suuu pts + Suvv pts) / 2

/-- Second component of `B`. -/
def Bvec2 (pts : List Pt) : ℚ := -(Svvv pts + Svuu pts) / 2

/-- `uc`, the first component of `np.linalg.solve(A, B)` (Cramer). -/
def ucSol (pts : List Pt) : ℚ :=
  (Bvec1 pts * Svv pts - Suv pts * Bvec2 pts) / detA pts

/-- `vc`, the second component of `np.linalg.solve(A, B)` (Cramer). -/
def vcSol (pts : List Pt) : ℚ :=
  (Suu pts * Bvec2 pts - Suv pts * Bvec1 pts) / detA pts

/-- `center_x = uc + x_mean`. -/
def centerX (pts : List Pt) : ℚ := ucSol pts + x_mean pts

/-- `center_y = vc + y_mean`. -/
def centerY (pts : List Pt) : ℚ := vcSol pts + y_mean pts

/-- Square of `radius = np.sqrt(uc**2 + vc**2 + (Suu + Svv)/len(x))`. -/
def radiusSq (pts : List Pt) : ℚ :=
  ucSol pts ^ 2 + vcSol pts ^ 2 + (Suu pts + Svv pts) / pts.length

/-- Squared distance from a pixel point to a rational centre. -/
def distCq (p : Pt) (c : ℚ × ℚ) : ℚ :=
  ((p.1 : ℚ) - c.1) ^ 2 + ((p.2 : ℚ) - c.2) ^ 2

/-- Decides `|sqrt dsq - sqrt rsq| > tol` for nonnegative rationals
`dsq`, `rsq` by squaring twice; `fit_arc`'s residual test
`np.abs(distances - radius) > tolerance` per point. -/
def absSqrtSubGt (dsq rsq tol : ℚ) : Bool :=
  if tol < 0 then true
  else decide (0 < dsq + rsq - tol ^ 2 ∧
    4 * dsq * rsq < (dsq + rsq - tol ^ 2) ^ 2)

/-- `np.max(np.abs(distances - radius)) > tolerance`: some input point's
residual against the fitted circle exceeds the tolerance. -/
def residualExceeds (pts : List Pt) (tol : ℚ) : Bool :=
  pts.any fun p =>
    absSqrtSubGt (distCq p (centerX pts, centerY pts)) (radiusSq pts) tol

/-- The direction test's cross product (source lines 59–61):
`(mid.x - start.x)*(end.y - start.y) - (mid.y - start.y)*(end.x - start.x)`
with `mid = points[len(points) // 2]`. -/
def arcCross (pts : List Pt) : ℤ :=
  let s := pts.headD pt0
  let e := pts.getLastD pt0
  let m := pts.getD (pts.length / 2) pt0
  (m.1 - s.1) * (e.2 - s.2) - (m.2 - s.2) * (e.1 - s.1)

/-- Rotational sense of an emitted arc: `G2` (clockwise) or `G3`
(counter-clockwise). -/
inductive Dir where
  | g2
  | g3
deriving DecidableEq, Repr

/-- Successful result of `fit_arc`: `(end_point, (i_offset, j_offset),
direction)`. -/
structure ArcFit where
  endPt : Pt
  iOff : ℚ
  jOff : ℚ
  dir : Dir
deriving DecidableEq, Repr

/-- `fit_arc(points, tolerance)`, source lines 11–73. -/
def fit_arc (points : List Pt) (tolerance : ℚ) : Option ArcFit :=
  if points.length < 3 then none
  else if detA points = 0 then none
  else if residualExceeds points tolerance then none
  else
    some
      { endPt := points.getLastD pt0
        iOff := centerX points - ((points.headD pt0).1 : ℚ)
        jOff := centerY points - ((points.headD pt0).2 : ℚ)
        dir := if 0 < arcCross points then Dir.g2 else Dir.g3 }

/-- The input points all lie on one line `a*x + b*y = c` with rational
coefficients, `(a, b) ≠ (0, 0)` — "points exactly collinear". -/
def CollinearPts (pts : List Pt) : Prop :=
  ∃ a b c : ℚ, ¬(a = 0 ∧ b = 0) ∧
    ∀ p ∈ pts, a * (p.1 : ℚ) + b * (p.2 : ℚ) = c

/-! ### The raster and point extraction (source lines 106–118) -/

/-- The bilevel raster consumed by `generate_kdtree_gcode`: pixel value
`0` means ink. -/
structure Image where
  width : ℕ
  height : ℕ
  pixel : ℕ → ℕ → ℕ

/-- The `for y … for x … if pixels[x, y] == 0` raster scan building
`point_list` in row-major order. -/
def pointList (img : Image) : List Pt :=
  (List.range img.height).flatMap fun y =>
    (List.range img.width).filterMap fun x =>
      if img.pixel x y = 0 then some ((x : ℤ), (y : ℤ)) else none

/-! ### The spatial index query (source line 136)

`kdtree.query(p, k=10, distance_upper_bound=r)` over the `point_list`
k-d tree: the indices of the points within distance `r` of `p`, by
ascending distance (ties by original index — the specification's Spatial
Index contract), truncated to the `k` nearest.  Distances are compared
through their squares. -/

/-- Candidate order of the query: ascending squared distance to the query
point, ties broken by ascending index. -/
def idxLe (pts : List Pt) (p : Pt) (i j : ℕ) : Bool :=
  decide (distSqZ (pts.getD i pt0) p < distSqZ (pts.getD j pt0) p ∨
    (distSqZ (pts.getD i pt0) p = distSqZ (pts.getD j pt0) p ∧ i ≤ j))

/-- Insert an index into a sorted candidate list (insertion sort step). -/
def insertIdx (pts : List Pt) (p : Pt) (i : ℕ) : List ℕ → List ℕ
  | [] => [i]
  | j :: js =>
    if idxLe pts p i j then i :: j :: js else j :: insertIdx pts p i js

/-- Sort candidate indices by `idxLe`. -/
def sortIdx (pts : List Pt) (p : Pt) : List ℕ → List ℕ
  | [] => []
  | i :: is => insertIdx pts p i (sortIdx pts p is)

/-- The embedded `kdtree.query`: indices within the (squared) distance
bound, sorted by distance, first `k` only. -/
def queryKNear (pts : List Pt) (p : Pt) (k : ℕ) (boundSq : ℚ) : List ℕ :=
  (sortIdx pts p
    ((List.range pts.length).filter fun i =>
      decide ((distSqZ (pts.getD i pt0) p : ℚ) ≤ boundSq))).take k

/-! ### Island traversal (source lines 122–149) -/

/-- One step's neighbour selection: the first index returned by the query
that is in range and not yet visited. -/
def findNext (pts : List Pt) (boundSq : ℚ) (vis : List ℕ) (cur : ℕ) :
    Option ℕ :=
  (queryKNear pts (pts.getD cur pt0) 10 boundSq).find? fun idx =>
    decide (idx < pts.length ∧ idx ∉ vis)

/-- The inner `while True` walk of phase 1: starting at an unvisited
index, repeatedly mark the current point visited, append it to the raw
path, and hop to the first unvisited point among the 10 nearest within
the search radius.  The fuel (`pts.length` at every call site) bounds the
chain length, which visits pairwise distinct indices. -/
def walk (pts : List Pt) (boundSq : ℚ) :
    ℕ → ℕ → List ℕ → List Pt × List ℕ
  | 0, cur, vis => ([pts.getD cur pt0], cur :: vis)
  | fuel + 1, cur, vis =>
    let vis2 := cur :: vis
    match findNext pts boundSq vis2 cur with
    | none => ([pts.getD cur pt0], vis2)
    | some nxt =>
      let res := walk pts boundSq fuel nxt vis2
      (pts.getD cur pt0 :: res.1, res.2)

/-- The outer `for i in range(len(point_list))` loop of phase 1: start a
new island at each raster-order index not yet visited. -/
def islandsLoop (pts : List Pt) (boundSq : ℚ) :
    List ℕ → List ℕ → List (List Pt)
  | [], _ => []
  | i :: rest, vis =>
    if i ∈ vis then islandsLoop pts boundSq rest vis
    else
      let res := walk pts boundSq pts.length i vis
      res.1 :: islandsLoop pts boundSq rest res.2

/-- Phase 1 of `generate_kdtree_gcode`: all islands, in discovery
order. -/
def islands (pts : List Pt) (boundSq : ℚ) : List (List Pt) :=
  islandsLoop pts boundSq (List.range pts.length) []

/-! ### Phase 2: sorting the islands (source line 154)

`all_islands.sort(key=lambda path: (min(p[1] for p in path),
min(p[0] for p in path)))` — a stable ascending sort by the
lexicographic key (min y, min x).  Python's sort is stable; any stable
sort realises it, here insertion sort. -/

/-- `min(p[0] for p in path)`. -/
def pathMinX (path : List Pt) : ℤ := ((path.map Prod.fst).min?).getD 0

/-- `min(p[1] for p in path)`. -/
def pathMinY (path : List Pt) : ℤ := ((path.map Prod.snd).min?).getD 0

/-- Python tuple comparison `key(a) <= key(b)` on the island sort key. -/
def keyLe (a b : List Pt) : Bool :=
  decide (pathMinY a < pathMinY b ∨
    (pathMinY a = pathMinY b ∧ pathMinX a ≤ pathMinX b))

/-- Stable insertion: an island is placed after every earlier island of
less-or-equal key. -/
def insertIsland (a : List Pt) : List (List Pt) → List (List Pt)
  | [] => [a]
  | b :: bs => if keyLe b a then b :: insertIsland a bs else a :: b :: bs

/-- The stable sort of phase 2. -/
def sortIslands (l : List (List Pt)) : List (List Pt) :=
  l.foldl (fun acc a => insertIsland a acc) []

/-! ### Motion commands and phase 3 (source lines 157–197) -/

/-- One emitted G-code line.  Numeric formatting (two decimals) is
abstracted: coordinates are carried exactly.  `linear` covers `G1` with
an optional feed (`G1 X0 Y0` of the empty-input program and the final
return home carry none). -/
inductive Cmd where
  | comment
  | penUp
  | penDown
  | linear (x y : ℚ) (feed : Option ℕ)
  | arcMove (dir : Dir) (x y i j : ℚ) (feed : ℕ)
deriving DecidableEq, Repr

/-- The raw points of an island between two consecutive simplified
anchors (source lines 178–183): positions via `list.index`, the
index-swapping fallback, then the slice
`island_path[start_idx : end_idx + 1]`. -/
def segPoints (island : List Pt) (s e : Pt) : List Pt :=
  let si := island.indexOf s
  let ei := island.indexOf e
  let lo := if ei < si then ei else si
  let hi := if ei < si then si else ei
  (island.drop lo).take (hi - lo + 1)

/-- Emission for one segment: an arc command when `fit_arc` succeeds,
otherwise a linear move to the segment's end anchor. -/
def emitSeg (sx sy : ℚ) (island : List Pt) (s e : Pt) : Cmd :=
  match fit_arc (segPoints island s e) ARC_FITTING_TOLERANCE with
  | some a =>
    Cmd.arcMove a.dir ((a.endPt.1 : ℚ) * sx) ((a.endPt.2 : ℚ) * sy)
      (a.iOff * sx) (a.jOff * sy) 2000
  | none => Cmd.linear ((e.1 : ℚ) * sx) ((e.2 : ℚ) * sy) (some 2000)

/-- Emission for one island (source lines 166–193): travel to the first
anchor, pen down, one command per anchor pair, pen up. -/
def emitIsland (sx sy : ℚ) (island : List Pt) : List Cmd :=
  let simplified := ramer_douglas_peucker island RDP_EPSILON
  if simplified.isEmpty then []
  else
    let st := simplified.headD pt0
    Cmd.linear ((st.1 : ℚ) * sx) ((st.2 : ℚ) * sy) (some 5000) ::
      Cmd.penDown ::
      ((List.range (simplified.length - 1)).map fun i =>
        emitSeg sx sy island (simplified.getD i pt0)
          (simplified.getD (i + 1) pt0)) ++
      [Cmd.penUp]

/-- The pixel search radius bound of the query, squared:
`(SEARCH_RADIUS_MM / (PLOTTER_WIDTH_MM / width))^2`. -/
def searchBoundSq (img : Image) : ℚ :=
  (SEARCH_RADIUS_MM / (PLOTTER_WIDTH_MM / (img.width : ℚ))) ^ 2

/-- `generate_kdtree_gcode(image)`, source lines 100–197. -/
def generate_kdtree_gcode (img : Image) : List Cmd :=
  let pts := pointList img
  if pts.isEmpty then [Cmd.penUp, Cmd.linear 0 0 none]
  else
    let sorted := sortIslands (islands pts (searchBoundSq img))
    let sx := PLOTTER_WIDTH_MM / (img.width : ℚ)
    let sy := PLOTTER_HEIGHT_MM / (img.height : ℚ)
    Cmd.comment :: Cmd.penUp :: Cmd.linear 0 0 (some 5000) ::
      sorted.flatMap (emitIsland sx sy) ++ [Cmd.linear 0 0 none]

/-! ### The analyzer `analyze_gcode` (source lines 227–258)

Replays the command list, accumulating draw/travel distance by pen state;
arcs use `radius * 2 * asin(chord / (2 * radius))`, falling back to the
chord when `radius <= chord / 2`.  Distances are real numbers. -/

/-- Analyzer fold state `(draw_dist, travel_dist, current_pos,
pen_is_down)`. -/
structure AnaState where
  draw : ℝ
  travel : ℝ
  pos : ℝ × ℝ
  pen : Bool

/-- Euclidean distance of a linear move (also the chord of an arc). -/
noncomputable def segDistR (a b : ℝ × ℝ) : ℝ :=
  Real.sqrt ((b.1 - a.1) ^ 2 + (b.2 - a.2) ^ 2)

/-- Approximated arc length of a `G2`/`G3` move. -/
noncomputable def arcDistR (a b : ℝ × ℝ) (i j : ℝ) : ℝ :=
  let radius := Real.sqrt (i ^ 2 + j ^ 2)
  let chord := segDistR a b
  if chord / 2 < radius then radius * (2 * Real.arcsin (chord / 2 / radius))
  else chord

/-- One step of the analyzer's command loop. -/
noncomputable def anaStep (s : AnaState) : Cmd → AnaState
  | Cmd.comment => s
  | Cmd.penDown => { s with pen := true }
  | Cmd.penUp => { s with pen := false }
  | Cmd.linear x y _ =>
    let tgt : ℝ × ℝ := ((x : ℝ), (y : ℝ))
    let d := segDistR s.pos tgt
    if s.pen then { s with draw := s.draw + d, pos := tgt }
    else { s with travel := s.travel + d, pos := tgt }
  | Cmd.arcMove _ x y i j _ =>
    let tgt : ℝ × ℝ := ((x : ℝ), (y : ℝ))
    let d := arcDistR s.pos tgt (i : ℝ) (j : ℝ)
    if s.pen then { s with draw := s.draw + d, pos := tgt }
    else { s with travel := s.travel + d, pos := tgt }

/-- The analyzer's report: total drawing distance, total travel distance,
path efficiency. -/
structure PathMetrics where
  draw_dist : ℝ
  travel_dist : ℝ
  efficiency : ℝ

open Classical in
/-- `analyze_gcode(gcode)`: replay from `(0, 0)`, pen up, both distances
`0`; efficiency is `draw / total * 100` for positive total and `0`
otherwise. -/
noncomputable def analyze_gcode (cmds : List Cmd) : PathMetrics :=
  let fin := cmds.foldl anaStep ⟨0, 0, (0, 0), false⟩
  let total := fin.draw + fin.travel
  { draw_dist := fin.draw
    travel_dist := fin.travel
    efficiency := if 0 < total then fin.draw / total * 100 else 0 }

/-! ### Concrete scenario inputs -/

/-- Scenario A raster: a 33×11 image whose ink pixels are the 11
collinear points `(i, i)`, `0 ≤ i ≤ 10`.  At width 33 the pixel search
radius is `33/23 ≈ 1.43`, so consecutive diagonal points (distance
`√2`) are connected and nothing else is. -/
def diagImg : Image := ⟨33, 11, fun x y => if x = y then 0 else 1⟩

/-- The expected extracted point list of `diagImg`. -/
def diagPts : List Pt :=
  [(0, 0), (1, 1), (2, 2), (3, 3), (4, 4), (5, 5), (6, 6), (7, 7),
   (8, 8), (9, 9), (10, 10)]

/-- An all-white 1×1 raster (no ink pixel). -/
def blankImg : Image := ⟨1, 1, fun _ _ => 1⟩

/-- Three points on the circle of centre `(1, 0)` and radius 1 —
a concrete input on which `fit_arc` succeeds. -/
def arcPts : List Pt := [(0, 0), (1, 1), (2, 0)]

/-- Three collinear points: every interior point lies on the chord, so
the RDP split index stays `0` — with a negative epsilon the source
recursion diverges here. -/
def collinear3 : List Pt := [(0, 0), (1, 1), (2, 2)]

/-- Four collinear points, same degeneracy as `collinear3`. -/
def collinear4 : List Pt := [(0, 0), (1, 1), (2, 2), (3, 3)]

/-- 2×2 minor (cross product) of two rational pairs, used to analyse the
singularity of the normal-equations matrix. -/
def cross2 (p q : ℚ × ℚ) : ℚ := p.1 * q.2 - p.2 * q.1

/-- The normal-equations determinant of an arbitrary list of rational
pairs; `detA pts` is `detQ` of the centred coordinates. -/
def detQ (l : List (ℚ × ℚ)) : ℚ :=
  (l.map fun q => q.1 ^ 2).sum * (l.map fun q => q.2 ^ 2).sum -
    ((l.map fun q => q.1 * q.2).sum) ^ 2

/-! ## Helper lemmas -/

/-- Fold invariant principle for `List.foldl`. -/
theorem foldl_inv {α β : Type _} {P : β → Prop} {step : β → α → β}
    {l : List α} {init : β} (h0 : P init)
    (hs : ∀ b a, a ∈ l → P b → P (step b a)) : P (l.foldl step init) := by
  induction l generalizing init with
  | nil => exact h0
  | cons x xs ih =>
    exact ih (hs _ _ (List.mem_cons_self _ _) h0)
      fun b a ha hb => hs b a (List.mem_cons_of_mem _ ha) hb

/-- Scores are nonnegative. -/
theorem pdScore_nonneg (s e p : Pt) : 0 ≤ pdScore s e p := by
  unfold pdScore
  split
  · exact add_nonneg (sq_nonneg _) (sq_nonneg _)
  · exact abs_nonneg _

/-- The `dmax, index` loop invariant: the running maximum is
nonnegative, index `0` goes with maximum `0`, and a nonzero index lies
between `1` and `length - 2`. -/
theorem rdpStep_spec (l : List Pt) :
    0 ≤ (rdpStep l).2 ∧ ((rdpStep l).1 = 0 → (rdpStep l).2 = 0) ∧
      ((rdpStep l).1 = 0 ∨
        (1 ≤ (rdpStep l).1 ∧ (rdpStep l).1 ≤ l.length - 2)) := by
  unfold rdpStep
  apply foldl_inv (P := fun acc : ℕ × ℤ =>
    0 ≤ acc.2 ∧ (acc.1 = 0 → acc.2 = 0) ∧
      (acc.1 = 0 ∨ (1 ≤ acc.1 ∧ acc.1 ≤ l.length - 2)))
  · exact ⟨le_refl 0, fun _ => rfl, Or.inl rfl⟩
  · intro b a ha hb
    simp only [List.mem_map, List.mem_range] at ha
    obtain ⟨y, hy, rfl⟩ := ha
    dsimp only
    split
    · refine ⟨pdScore_nonneg _ _ _, fun h => absurd h (by omega), Or.inr ?_⟩
      omega
    · exact hb

/-- A nonempty list contains its last element (default irrelevant). -/
theorem getLastD_mem {α : Type _} (l : List α) (d : α) (h : l ≠ []) :
    l.getLastD d ∈ l := by
  induction l generalizing d with
  | nil => exact absurd rfl h
  | cons a t ih =>
    cases t with
    | nil => simp
    | cons b t2 =>
      rw [List.getLastD_cons]
      exact List.mem_cons_of_mem _ (ih _ (by simp))

/-- The two-point result of a collapse step is a sublist of any list of
length at least 2 (its head and its last element, in order). -/
theorem head_last_sublist (l : List Pt) (h : 2 ≤ l.length) :
    List.Sublist [l.headD pt0, l.getLastD pt0] l := by
  match l, h with
  | a :: b :: t, _ =>
    simp only [List.headD_cons, List.getLastD_cons]
    refine List.cons_sublist_cons.mpr (List.singleton_sublist.mpr ?_)
    exact List.getLastD_mem_cons t b

/-- The split index is at most `length - 2` (trivially also when it is
`0`). -/
theorem rdpStep_le (l : List Pt) :
    (rdpStep l).1 ≤ l.length - 2 := by
  rcases (rdpStep_spec l).2.2 with h0 | ⟨_, h2⟩
  · omega
  · exact h2

/-- `take (i+1)` splits off `getD i` when `i` is in range. -/
theorem take_succ_getD {α : Type _} (l : List α) (d : α) (i : ℕ)
    (h : i < l.length) : l.take (i + 1) = l.take i ++ [l.getD i d] := by
  rw [List.take_succ, List.getD_eq_getElem l d h,
    List.getElem?_eq_getElem h]
  rfl

/-- RDP output is a sublist (subsequence) of its input, at any fuel. -/
theorem rdpFuel_sublist (fuel : ℕ) :
    ∀ (l : List Pt) (eps : ℚ), List.Sublist (rdpFuel fuel l eps) l := by
  induction fuel with
  | zero => intro l _; exact List.Sublist.refl l
  | succ fuel ih =>
    intro l eps
    simp only [rdpFuel]
    split
    · exact List.Sublist.refl l
    · rename_i hlen
      split
      · have hilt : (rdpStep l).1 < l.length := by
          have := rdpStep_le l
          omega
        have h1 := ih (l.take ((rdpStep l).1 + 1)) eps
        have h2 := ih (l.drop (rdpStep l).1) eps
        rw [take_succ_getD l pt0 _ hilt] at h1
        rcases List.sublist_append_iff.mp h1 with ⟨u, v, huv, hu, hv⟩
        have hdl :
            List.Sublist (rdpFuel fuel (l.take ((rdpStep l).1 + 1)) eps).dropLast
              (l.take (rdpStep l).1) := by
          rw [take_succ_getD l pt0 _ hilt, huv]
          cases v with
          | nil =>
            rw [List.append_nil]
            exact List.Sublist.trans (List.dropLast_sublist u) hu
          | cons a v2 =>
            have hv2 : v2 = [] := by
              have := hv.length_le
              simp at this
              simpa using this
            subst hv2
            rw [List.dropLast_concat]
            exact hu
        have hall := List.Sublist.append hdl h2
        rw [List.take_append_drop] at hall
        exact hall
      · exact head_last_sublist l (by omega)

/-- The default of `getLastD` is irrelevant on a nonempty list. -/
theorem getLastD_irrel {α : Type _} (v : List α) (c d : α) (hv : v ≠ []) :
    v.getLastD c = v.getLastD d := by
  cases v with
  | nil => exact absurd rfl hv
  | cons b t => rw [List.getLastD_cons, List.getLastD_cons]

/-- `getLastD` of an append with nonempty right part. -/
theorem getLastD_append {α : Type _} (u v : List α) (d : α) (hv : v ≠ []) :
    (u ++ v).getLastD d = v.getLastD d := by
  induction u generalizing d with
  | nil => rfl
  | cons a u ih =>
    rw [List.cons_append, List.getLastD_cons]
    cases u with
    | nil => simpa using getLastD_irrel v a d hv
    | cons b t => rw [ih a]; exact getLastD_irrel v a d hv

/-- `headD` of `dropLast` on a list of length at least 2. -/
theorem headD_dropLast {α : Type _} (l : List α) (d : α)
    (h : 2 ≤ l.length) : l.dropLast.headD d = l.headD d := by
  match l, h with
  | a :: b :: t, _ => rfl

/-- `headD` of a nonempty `take`. -/
theorem headD_take {α : Type _} (l : List α) (d : α) (n : ℕ)
    (hl : l ≠ []) : (l.take (n + 1)).headD d = l.headD d := by
  cases l with
  | nil => exact absurd rfl hl
  | cons a t => rw [List.take_succ_cons, List.headD_cons, List.headD_cons]

/-- `getLastD` of a proper `drop`. -/
theorem getLastD_drop {α : Type _} (l : List α) (d : α) (n : ℕ)
    (h : n < l.length) : (l.drop n).getLastD d = l.getLastD d := by
  conv_rhs => rw [← List.take_append_drop n l]
  rw [getLastD_append]
  intro hemp
  have := congrArg List.length hemp
  simp at this
  omega

/-- RDP output on at least 2 points has at least 2 points, at any
fuel. -/
theorem rdpFuel_length_ge (fuel : ℕ) :
    ∀ (l : List Pt) (eps : ℚ), 2 ≤ l.length →
      2 ≤ (rdpFuel fuel l eps).length := by
  induction fuel with
  | zero => intro l _ h; exact h
  | succ fuel ih =>
    intro l eps h
    simp only [rdpFuel]
    split
    · exact h
    · rename_i hlen
      split
      · have hile : (rdpStep l).1 ≤ l.length - 2 := rdpStep_le l
        have h2 : 2 ≤ (rdpFuel fuel (l.drop (rdpStep l).1) eps).length := by
          apply ih
          rw [List.length_drop]
          omega
        rw [List.length_append, List.length_dropLast]
        omega
      · simp

/-- `headD` of an append with nonempty left part. -/
theorem headD_append {α : Type _} (u v : List α) (d : α) (hu : u ≠ []) :
    (u ++ v).headD d = u.headD d := by
  cases u with
  | nil => exact absurd rfl hu
  | cons a t => rfl

/-- RDP output is nonempty and keeps the input's first and last points,
at any fuel. -/
theorem rdpFuel_ends (fuel : ℕ) :
    ∀ (l : List Pt) (eps : ℚ), l ≠ [] →
      rdpFuel fuel l eps ≠ [] ∧
        (rdpFuel fuel l eps).headD pt0 = l.headD pt0 ∧
        (rdpFuel fuel l eps).getLastD pt0 = l.getLastD pt0 := by
  induction fuel with
  | zero => intro l _ h; exact ⟨h, rfl, rfl⟩
  | succ fuel ih =>
    intro l eps hne
    have hlpos : 0 < l.length := List.length_pos.mpr hne
    simp only [rdpFuel]
    split
    · exact ⟨hne, rfl, rfl⟩
    · rename_i hlen
      have hlen3 : 3 ≤ l.length := by omega
      split
      · have hile : (rdpStep l).1 ≤ l.length - 2 := rdpStep_le l
        have hilt : (rdpStep l).1 < l.length := by omega
        have hdroplen : (l.drop (rdpStep l).1).length = l.length - (rdpStep l).1 :=
          List.length_drop _ _
        have htakelen : (l.take ((rdpStep l).1 + 1)).length = (rdpStep l).1 + 1 := by
          rw [List.length_take]
          omega
        have hdropne : l.drop (rdpStep l).1 ≠ [] := by
          intro hemp
          rw [hemp] at hdroplen
          simp at hdroplen
          omega
        have htakene : l.take ((rdpStep l).1 + 1) ≠ [] := by
          intro hemp
          rw [hemp] at htakelen
          simp at htakelen
        obtain ⟨hne2, hhd2, hlast2⟩ := ih (l.drop (rdpStep l).1) eps hdropne
        obtain ⟨hne1, hhd1, hlast1⟩ := ih (l.take ((rdpStep l).1 + 1)) eps htakene
        refine ⟨by simp [hne2], ?_, ?_⟩
        · -- head is preserved
          by_cases hdl :
              (rdpFuel fuel (l.take ((rdpStep l).1 + 1)) eps).dropLast = []
          · -- then the split index is 0 and the head comes from rec2
            rw [hdl, List.nil_append]
            have hlendl := congrArg List.length hdl
            simp only [List.length_dropLast, List.length_nil] at hlendl
            have hi0 : (rdpStep l).1 = 0 := by
              by_contra hi
              have htk2 : 2 ≤ (l.take ((rdpStep l).1 + 1)).length := by omega
              have := rdpFuel_length_ge fuel (l.take ((rdpStep l).1 + 1)) eps htk2
              omega
            rw [hhd2, hi0, List.drop_zero]
          · rw [headD_append _ _ _ hdl]
            have hlen2 : 2 ≤ (rdpFuel fuel (l.take ((rdpStep l).1 + 1)) eps).length := by
              have hnen1 : 0 < (rdpFuel fuel (l.take ((rdpStep l).1 + 1)) eps).length :=
                List.length_pos.mpr hne1
              have hlendl : (rdpFuel fuel (l.take ((rdpStep l).1 + 1)) eps).dropLast.length ≠ 0 := by
                intro h0
                exact hdl (List.length_eq_zero.mp h0)
              rw [List.length_dropLast] at hlendl
              omega
            rw [headD_dropLast _ _ hlen2, hhd1, headD_take l pt0 _ hne]
        · -- last is preserved
          rw [getLastD_append _ _ _ hne2, hlast2, getLastD_drop l pt0 _ hilt]
      · exact ⟨by simp, rfl, rfl⟩

/-- The denominator square is nonnegative. -/
theorem pdDenSq_nonneg (s e : Pt) : 0 ≤ pdDenSq s e :=
  add_nonneg (sq_nonneg _) (sq_nonneg _)

/-- The recursion test is antitone in epsilon: if the maximum distance
exceeds the larger epsilon it exceeds the smaller one. -/
theorem scoreGtEps_mono (denSq sc : ℤ) (hden : 0 ≤ denSq) (e1 e2 : ℚ)
    (h12 : e1 ≤ e2) (h : scoreGtEps denSq sc e2 = true) :
    scoreGtEps denSq sc e1 = true := by
  unfold scoreGtEps at h ⊢
  by_cases h1 : e1 < 0
  · simp [h1]
  · have h2 : ¬e2 < 0 := by
      intro h2
      exact h1 (lt_of_le_of_lt h12 h2)
    have h1n : (0 : ℚ) ≤ e1 := le_of_not_lt h1
    have hpow : e1 ^ 2 ≤ e2 ^ 2 := by nlinarith
    by_cases hd : denSq = 0
    · simp only [h1, if_false, h2, hd, if_true, decide_eq_true_eq] at h ⊢
      exact lt_of_le_of_lt hpow h
    · simp only [h1, if_false, h2, hd, if_true, decide_eq_true_eq] at h ⊢
      refine lt_of_le_of_lt ?_ h
      have : (0 : ℚ) ≤ (denSq : ℚ) := by exact_mod_cast hden
      nlinarith

/-- Enlarging epsilon never lengthens the RDP output (same fuel). -/
theorem rdpFuel_mono (fuel : ℕ) :
    ∀ (l : List Pt) (e1 e2 : ℚ), e1 ≤ e2 →
      (rdpFuel fuel l e2).length ≤ (rdpFuel fuel l e1).length := by
  induction fuel with
  | zero => intro l _ _ _; exact le_refl _
  | succ fuel ih =>
    intro l e1 e2 h12
    simp only [rdpFuel]
    split
    · exact le_refl _
    · rename_i hlen
      have hile : (rdpStep l).1 ≤ l.length - 2 := rdpStep_le l
      have hdrop2 : 2 ≤ (l.drop (rdpStep l).1).length := by
        rw [List.length_drop]
        omega
      by_cases hb2 :
          scoreGtEps (pdDenSq (l.headD pt0) (l.getLastD pt0)) (rdpStep l).2 e2 = true
      · have hb1 := scoreGtEps_mono _ _ (pdDenSq_nonneg _ _) _ _ h12 hb2
        rw [if_pos hb1, if_pos hb2]
        simp only [List.length_append, List.length_dropLast]
        have m1 := ih (l.take ((rdpStep l).1 + 1)) e1 e2 h12
        have m2 := ih (l.drop (rdpStep l).1) e1 e2 h12
        have g2 := rdpFuel_length_ge fuel (l.drop (rdpStep l).1) e1 hdrop2
        omega
      · rw [if_neg hb2]
        by_cases hb1 :
            scoreGtEps (pdDenSq (l.headD pt0) (l.getLastD pt0)) (rdpStep l).2 e1 = true
        · rw [if_pos hb1]
          have g2 := rdpFuel_length_ge fuel (l.drop (rdpStep l).1) e1 hdrop2
          simp only [List.length_append, List.length_dropLast, List.length_cons,
            List.length_nil]
          omega
        · rw [if_neg hb1]

/-- The walk of phase 1 produces the points of a nonempty, duplicate-free
chain of point indices, all in range and all freshly visited; the
returned visited set is the old one plus exactly the chain. -/
theorem walk_spec (pts : List Pt) (bSq : ℚ) :
    ∀ (fuel cur : ℕ) (vis : List ℕ), cur < pts.length → cur ∉ vis →
      ∃ ch : List ℕ, ch ≠ [] ∧ cur ∈ ch ∧ ch.Nodup ∧
        (∀ j ∈ ch, j < pts.length ∧ j ∉ vis) ∧
        (walk pts bSq fuel cur vis).1 = ch.map (fun j => pts.getD j pt0) ∧
        (∀ j, j ∈ (walk pts bSq fuel cur vis).2 ↔ j ∈ ch ∨ j ∈ vis) := by
  intro fuel
  induction fuel with
  | zero =>
    intro cur vis hlt hnv
    refine ⟨[cur], by simp, by simp, by simp, ?_, by simp [walk], ?_⟩
    · intro j hj
      simp at hj
      subst hj
      exact ⟨hlt, hnv⟩
    · intro j
      simp [walk]
  | succ fuel ih =>
    intro cur vis hlt hnv
    cases hfind : findNext pts bSq (cur :: vis) cur with
    | none =>
      refine ⟨[cur], by simp, by simp, by simp, ?_, ?_, ?_⟩
      · intro j hj
        simp at hj
        subst hj
        exact ⟨hlt, hnv⟩
      · simp [walk, hfind]
      · intro j
        simp [walk, hfind]
    | some nxt =>
      have hp := List.find?_some hfind
      simp only [decide_eq_true_eq] at hp
      obtain ⟨hnlt, hnv2⟩ := hp
      have hnxtcur : nxt ≠ cur := by
        intro h
        exact hnv2 (h ▸ List.mem_cons_self _ _)
      have hnxtvis : nxt ∉ vis := fun h => hnv2 (List.mem_cons_of_mem _ h)
      obtain ⟨ch2, hch2ne, hch2mem, hch2nd, hch2all, hch2fst, hch2snd⟩ :=
        ih nxt (cur :: vis) hnlt hnv2
      refine ⟨cur :: ch2, by simp, by simp, ?_, ?_, ?_, ?_⟩
      · refine List.Nodup.cons ?_ hch2nd
        intro hcur
        exact (hch2all cur hcur).2 (List.mem_cons_self _ _)
      · intro j hj
        rcases List.mem_cons.mp hj with rfl | hj2
        · exact ⟨hlt, hnv⟩
        · obtain ⟨hjlt, hjnv⟩ := hch2all j hj2
          exact ⟨hjlt, fun h => hjnv (List.mem_cons_of_mem _ h)⟩
      · simp only [walk, hfind, List.map_cons]
        rw [hch2fst]
      · intro j
        simp only [walk, hfind]
        rw [hch2snd j]
        simp only [List.mem_cons]
        tauto

/-- The outer loop of phase 1 produces islands that are the point images
of pairwise disjoint, duplicate-free, in-range index chains covering
every index it scans. -/
theorem islandsLoop_spec (pts : List Pt) (bSq : ℚ) :
    ∀ (idxs vis : List ℕ), (∀ i ∈ idxs, i < pts.length) →
      ∃ chains : List (List ℕ),
        islandsLoop pts bSq idxs vis =
          chains.map (fun ch => ch.map (fun j => pts.getD j pt0)) ∧
        chains.flatten.Nodup ∧
        (∀ j ∈ chains.flatten, j < pts.length ∧ j ∉ vis) ∧
        (∀ i ∈ idxs, i ∈ vis ∨ i ∈ chains.flatten) ∧
        (∀ ch ∈ chains, ch ≠ []) := by
  intro idxs
  induction idxs with
  | nil => intro vis _; exact ⟨[], by simp [islandsLoop], by simp, by simp, by simp, by simp⟩
  | cons i rest ih =>
    intro vis hidx
    by_cases hiv : i ∈ vis
    · obtain ⟨chains, h1, h2, h3, h4, h5⟩ :=
        ih vis fun j hj => hidx j (List.mem_cons_of_mem _ hj)
      refine ⟨chains, ?_, h2, h3, ?_, h5⟩
      · simp only [islandsLoop, if_pos hiv]
        exact h1
      · intro j hj
        rcases List.mem_cons.mp hj with rfl | hj2
        · exact Or.inl hiv
        · exact h4 j hj2
    · obtain ⟨ch, hchne, hchmem, hchnd, hchall, hchfst, hchsnd⟩ :=
        walk_spec pts bSq pts.length i vis
          (hidx i (List.mem_cons_self _ _)) hiv
      obtain ⟨chains2, g1, g2, g3, g4, g5⟩ :=
        ih (walk pts bSq pts.length i vis).2
          fun j hj => hidx j (List.mem_cons_of_mem _ hj)
      refine ⟨ch :: chains2, ?_, ?_, ?_, ?_, ?_⟩
      · simp only [islandsLoop, if_neg hiv, List.map_cons]
        rw [g1, hchfst]
      · simp only [List.flatten_cons]
        rw [List.nodup_append]
        refine ⟨hchnd, g2, ?_⟩
        intro a ha hacontra
        have := (g3 a hacontra).2
        rw [hchsnd a] at this
        exact this (Or.inl ha)
      · simp only [List.flatten_cons]
        intro j hj
        rcases List.mem_append.mp hj with hj1 | hj2
        · exact hchall j hj1
        · obtain ⟨hjlt, hjnv⟩ := g3 j hj2
          refine ⟨hjlt, fun hc => hjnv ?_⟩
          rw [hchsnd j]
          exact Or.inr hc
      · intro j hj
        simp only [List.flatten_cons, List.mem_append]
        rcases List.mem_cons.mp hj with rfl | hj2
        · exact Or.inr (Or.inl hchmem)
        · rcases g4 j hj2 with hin | hin
          · rw [hchsnd j] at hin
            rcases hin with h | h
            · exact Or.inr (Or.inl h)
            · exact Or.inl h
          · exact Or.inr (Or.inr hin)
      · intro c hc
        rcases List.mem_cons.mp hc with rfl | hc2
        · exact hchne
        · exact g5 c hc2

/-- Reading a list back off `getD` over its index range. -/
theorem range_map_getD {α : Type _} (l : List α) (d : α) :
    (List.range l.length).map (fun i => l.getD i d) = l := by
  apply List.ext_getElem
  · simp
  · intro i h1 h2
    simp only [List.getElem_map, List.getElem_range]
    exact List.getD_eq_getElem l d h2

/-- The islands of phase 1, concatenated, are a permutation of the
extracted point list. -/
theorem islands_flatten_perm (pts : List Pt) (bSq : ℚ) :
    ((islands pts bSq).flatten).Perm pts := by
  obtain ⟨chains, h1, h2, h3, h4, _⟩ :=
    islandsLoop_spec pts bSq (List.range pts.length) []
      fun i hi => List.mem_range.mp hi
  have hperm : chains.flatten.Perm (List.range pts.length) := by
    apply List.perm_of_nodup_nodup_toFinset_eq h2 (List.nodup_range _)
    apply List.toFinset.ext
    intro j
    simp only [List.mem_range]
    constructor
    · intro hj
      exact (h3 j hj).1
    · intro hj
      rcases h4 j (List.mem_range.mpr hj) with h | h
      · simp at h
      · exact h
  have hmap := hperm.map (fun j => pts.getD j pt0)
  rw [range_map_getD] at hmap
  rw [islands, h1, ← List.map_flatten]
  exact hmap

/-- Membership in the extracted point list. -/
theorem mem_pointList (img : Image) (p : Pt) :
    p ∈ pointList img ↔
      ∃ x y : ℕ, x < img.width ∧ y < img.height ∧ img.pixel x y = 0 ∧
        p = ((x : ℤ), (y : ℤ)) := by
  rw [pointList]
  simp only [List.mem_flatMap, List.mem_filterMap, List.mem_range]
  constructor
  · rintro ⟨y, hy, x, hx, hsome⟩
    by_cases hpix : img.pixel x y = 0
    · rw [if_pos hpix] at hsome
      exact ⟨x, y, hx, hy, hpix, (Option.some_inj.mp hsome).symm⟩
    · rw [if_neg hpix] at hsome
      exact absurd hsome (Option.noConfusion)
  · rintro ⟨x, y, hx, hy, hpix, rfl⟩
    exact ⟨y, hy, x, hx, by rw [if_pos hpix]⟩

/-- The raster scan never extracts the same coordinate twice. -/
theorem pointList_nodup (img : Image) : (pointList img).Nodup := by
  rw [pointList]
  rw [List.nodup_flatMap]
  constructor
  · intro y _
    apply List.Nodup.filterMap
    · intro a a2 b hb hb2
      by_cases h1 : img.pixel a y = 0
      · by_cases h2 : img.pixel a2 y = 0
        · rw [if_pos h1, Option.mem_def, Option.some_inj] at hb
          rw [if_pos h2, Option.mem_def, Option.some_inj] at hb2
          have heq : ((a : ℤ), (y : ℤ)) = ((a2 : ℤ), (y : ℤ)) := by rw [hb, hb2]
          have hfst : (a : ℤ) = (a2 : ℤ) := congrArg Prod.fst heq
          exact_mod_cast hfst
        · rw [if_neg h2, Option.mem_def] at hb2
          exact absurd hb2 (Option.noConfusion)
      · rw [if_neg h1, Option.mem_def] at hb
        exact absurd hb (Option.noConfusion)
    · exact List.nodup_range _
  · apply List.Pairwise.imp ?_ (List.pairwise_lt_range _)
    intro y y2 hlt p hp hp2
    simp only [List.mem_filterMap, List.mem_range] at hp hp2
    obtain ⟨x, _, hsome⟩ := hp
    obtain ⟨x2, _, hsome2⟩ := hp2
    by_cases h1 : img.pixel x y = 0
    · by_cases h2 : img.pixel x2 y2 = 0
      · rw [if_pos h1, Option.some_inj] at hsome
        rw [if_pos h2, Option.some_inj] at hsome2
        have heq : ((x : ℤ), (y : ℤ)) = ((x2 : ℤ), (y2 : ℤ)) := by
          rw [hsome, ← hsome2]
        have hsnd : (y : ℤ) = (y2 : ℤ) := congrArg Prod.snd heq
        have : y = y2 := by exact_mod_cast hsnd
        omega
      · rw [if_neg h2] at hsome2
        exact absurd hsome2 (Option.noConfusion)
    · rw [if_neg h1] at hsome
      exact absurd hsome (Option.noConfusion)

/-! ### List sum arithmetic helpers -/

/-- Sum of a pointwise sum. -/
theorem listSum_add {α : Type _} (f g : α → ℚ) (l : List α) :
    (l.map fun x => f x + g x).sum = (l.map f).sum + (l.map g).sum := by
  induction l with
  | nil => simp
  | cons a t ih => simp [ih]; ring

/-- Sum of a pointwise difference. -/
theorem listSum_sub {α : Type _} (f g : α → ℚ) (l : List α) :
    (l.map fun x => f x - g x).sum = (l.map f).sum - (l.map g).sum := by
  induction l with
  | nil => simp
  | cons a t ih => simp [ih]; ring

/-- Scalars pull out of sums. -/
theorem listSum_mul (c : ℚ) {α : Type _} (f : α → ℚ) (l : List α) :
    (l.map fun x => c * f x).sum = c * (l.map f).sum := by
  induction l with
  | nil => simp
  | cons a t ih => simp [ih]; ring

/-- Congruent summands give equal sums. -/
theorem listSum_congr {α : Type _} {f g : α → ℚ} {l : List α}
    (h : ∀ x ∈ l, f x = g x) : (l.map f).sum = (l.map g).sum := by
  rw [List.map_congr_left h]

/-- A sum of nonnegative terms is nonnegative. -/
theorem listSum_nonneg {α : Type _} {f : α → ℚ} {l : List α}
    (h : ∀ x ∈ l, 0 ≤ f x) : 0 ≤ (l.map f).sum := by
  induction l with
  | nil => simp
  | cons a t ih =>
    simp only [List.map_cons, List.sum_cons]
    have h1 := h a (List.mem_cons_self _ _)
    have h2 := ih fun x hx => h x (List.mem_cons_of_mem _ hx)
    linarith

/-- A vanishing sum of nonnegative terms has vanishing terms. -/
theorem listSum_eq_zero {α : Type _} {f : α → ℚ} {l : List α}
    (h : ∀ x ∈ l, 0 ≤ f x) (h0 : (l.map f).sum = 0) :
    ∀ x ∈ l, f x = 0 := by
  induction l with
  | nil => simp
  | cons a t ih =>
    simp only [List.map_cons, List.sum_cons] at h0
    have ha := h a (List.mem_cons_self _ _)
    have ht : ∀ x ∈ t, 0 ≤ f x := fun x hx => h x (List.mem_cons_of_mem _ hx)
    have hts := listSum_nonneg ht
    have ha0 : f a = 0 := by linarith
    have ht0 : (t.map f).sum = 0 := by linarith
    intro x hx
    rcases List.mem_cons.mp hx with rfl | hx2
    · exact ha0
    · exact ih ht ht0 x hx2

/-! ### The Lagrange identity and singularity of the normal equations -/

/-- Cons step of the Lagrange identity: adding a pair adds the summed
squared minors against the rest. -/
theorem detQ_cons (p : ℚ × ℚ) (l : List (ℚ × ℚ)) :
    detQ (p :: l) = detQ l + (l.map fun q => cross2 p q ^ 2).sum := by
  unfold detQ
  simp only [List.map_cons, List.sum_cons]
  have hexp : (l.map fun q => cross2 p q ^ 2).sum =
      p.1 ^ 2 * (l.map fun q => q.2 ^ 2).sum +
        p.2 ^ 2 * (l.map fun q => q.1 ^ 2).sum -
        2 * p.1 * p.2 * (l.map fun q => q.1 * q.2).sum := by
    have h1 : (l.map fun q => cross2 p q ^ 2).sum =
        (l.map fun q =>
          (p.1 ^ 2 * q.2 ^ 2 + p.2 ^ 2 * q.1 ^ 2) -
            2 * p.1 * p.2 * (q.1 * q.2)).sum := by
      apply listSum_congr
      intro q _
      unfold cross2
      ring
    rw [h1, listSum_sub, listSum_add]
    have ha : (l.map fun q : ℚ × ℚ => p.1 ^ 2 * q.2 ^ 2).sum =
        p.1 ^ 2 * (l.map fun q => q.2 ^ 2).sum :=
      listSum_mul (p.1 ^ 2) (fun q => q.2 ^ 2) l
    have hb : (l.map fun q : ℚ × ℚ => p.2 ^ 2 * q.1 ^ 2).sum =
        p.2 ^ 2 * (l.map fun q => q.1 ^ 2).sum :=
      listSum_mul (p.2 ^ 2) (fun q => q.1 ^ 2) l
    have hc : (l.map fun q : ℚ × ℚ => 2 * p.1 * p.2 * (q.1 * q.2)).sum =
        2 * p.1 * p.2 * (l.map fun q => q.1 * q.2).sum :=
      listSum_mul (2 * p.1 * p.2) (fun q => q.1 * q.2) l
    rw [ha, hb, hc]
  rw [hexp]
  ring

/-- The determinant of the normal equations is nonnegative
(Cauchy–Schwarz). -/
theorem detQ_nonneg (l : List (ℚ × ℚ)) : 0 ≤ detQ l := by
  induction l with
  | nil => simp [detQ]
  | cons p t ih =>
    rw [detQ_cons]
    have := listSum_nonneg (l := t) (f := fun q => cross2 p q ^ 2)
      fun q _ => sq_nonneg _
    linarith

/-- A vanishing determinant forces all pairwise minors to vanish. -/
theorem cross2_eq_zero_of_detQ (l : List (ℚ × ℚ)) (h : detQ l = 0) :
    ∀ p ∈ l, ∀ q ∈ l, cross2 p q = 0 := by
  induction l with
  | nil => simp
  | cons a t ih =>
    rw [detQ_cons] at h
    have hd := detQ_nonneg t
    have hs := listSum_nonneg (l := t) (f := fun q => cross2 a q ^ 2)
      fun q _ => sq_nonneg _
    have hd0 : detQ t = 0 := by linarith
    have hs0 : (t.map fun q => cross2 a q ^ 2).sum = 0 := by linarith
    have hterm := listSum_eq_zero (fun q _ => sq_nonneg _) hs0
    have hcr : ∀ q ∈ t, cross2 a q = 0 := by
      intro q hq
      have := hterm q hq
      exact pow_eq_zero_iff (by norm_num) |>.mp this
    have hcr2 : ∀ q ∈ t, cross2 q a = 0 := by
      intro q hq
      have := hcr q hq
      unfold cross2 at this ⊢
      linarith
    intro p hp q hq
    rcases List.mem_cons.mp hp with rfl | hp2
    · rcases List.mem_cons.mp hq with rfl | hq2
      · unfold cross2; ring
      · exact hcr q hq2
    · rcases List.mem_cons.mp hq with rfl | hq2
      · exact hcr2 p hp2
      · exact ih hd0 p hp2 q hq2

/-- A sum of pointwise-zero terms vanishes. -/
theorem listSum_zero_of {α : Type _} {f : α → ℚ} {l : List α}
    (h : ∀ x ∈ l, f x = 0) : (l.map f).sum = 0 := by
  induction l with
  | nil => simp
  | cons a t ih =>
    simp only [List.map_cons, List.sum_cons]
    rw [h a (List.mem_cons_self _ _),
      ih fun x hx => h x (List.mem_cons_of_mem _ hx)]
    ring

/-- A constant sum. -/
theorem listSum_const {α : Type _} (c : ℚ) (l : List α) :
    (l.map fun _ => c).sum = l.length * c := by
  induction l with
  | nil => simp
  | cons a t ih =>
    simp only [List.map_cons, List.sum_cons, List.length_cons, ih]
    push_cast
    ring

/-- Exactly collinear input points make the normal-equations matrix
singular. -/
theorem detA_eq_zero_of_collinear (pts : List Pt) (hne : pts ≠ [])
    (h : CollinearPts pts) : detA pts = 0 := by
  obtain ⟨a, b, c, hab, hline⟩ := h
  have hlp : 0 < pts.length := List.length_pos.mpr hne
  have hn : (pts.length : ℚ) ≠ 0 := by
    have hq : (0 : ℚ) < (pts.length : ℚ) := by exact_mod_cast hlp
    exact ne_of_gt hq
  have hsum : (pts.map fun p => a * (p.1 : ℚ) + b * (p.2 : ℚ)).sum =
      (pts.length : ℚ) * c := by
    rw [listSum_congr fun p hp => hline p hp]
    exact listSum_const c pts
  have e1 : (pts.map fun p : Pt => a * (p.1 : ℚ) + b * (p.2 : ℚ)).sum =
      (pts.map fun p : Pt => a * (p.1 : ℚ)).sum +
        (pts.map fun p : Pt => b * (p.2 : ℚ)).sum :=
    listSum_add _ _ _
  have e2 : (pts.map fun p : Pt => a * (p.1 : ℚ)).sum =
      a * (pts.map fun p : Pt => (p.1 : ℚ)).sum :=
    listSum_mul a _ _
  have e3 : (pts.map fun p : Pt => b * (p.2 : ℚ)).sum =
      b * (pts.map fun p : Pt => (p.2 : ℚ)).sum :=
    listSum_mul b _ _
  have hmean : a * x_mean pts + b * y_mean pts = c := by
    unfold x_mean y_mean
    field_simp
    linarith [hsum, e1, e2, e3]
  have hcent : ∀ q ∈ centered pts, a * q.1 + b * q.2 = 0 := by
    intro q hq
    rw [centered] at hq
    obtain ⟨p, hp, rfl⟩ := List.mem_map.mp hq
    have hl := hline p hp
    simp only
    linarith [hmean, hl]
  have h1 : a * Suu pts + b * Suv pts = 0 := by
    have f1 : ((centered pts).map fun q : ℚ × ℚ => a * q.1 ^ 2).sum =
        a * ((centered pts).map fun q : ℚ × ℚ => q.1 ^ 2).sum :=
      listSum_mul a _ _
    have f2 : ((centered pts).map fun q : ℚ × ℚ => b * (q.1 * q.2)).sum =
        b * ((centered pts).map fun q : ℚ × ℚ => q.1 * q.2).sum :=
      listSum_mul b _ _
    have f3 : ((centered pts).map fun q : ℚ × ℚ =>
        a * q.1 ^ 2 + b * (q.1 * q.2)).sum =
        ((centered pts).map fun q : ℚ × ℚ => a * q.1 ^ 2).sum +
          ((centered pts).map fun q : ℚ × ℚ => b * (q.1 * q.2)).sum :=
      listSum_add _ _ _
    have f4 : ((centered pts).map fun q : ℚ × ℚ =>
        a * q.1 ^ 2 + b * (q.1 * q.2)).sum = 0 := by
      apply listSum_zero_of
      intro q hq
      have := hcent q hq
      linear_combination q.1 * this
    unfold Suu Suv
    linarith [f1, f2, f3, f4]
  have h2 : a * Suv pts + b * Svv pts = 0 := by
    have f1 : ((centered pts).map fun q : ℚ × ℚ => a * (q.1 * q.2)).sum =
        a * ((centered pts).map fun q : ℚ × ℚ => q.1 * q.2).sum :=
      listSum_mul a _ _
    have f2 : ((centered pts).map fun q : ℚ × ℚ => b * q.2 ^ 2).sum =
        b * ((centered pts).map fun q : ℚ × ℚ => q.2 ^ 2).sum :=
      listSum_mul b _ _
    have f3 : ((centered pts).map fun q : ℚ × ℚ =>
        a * (q.1 * q.2) + b * q.2 ^ 2).sum =
        ((centered pts).map fun q : ℚ × ℚ => a * (q.1 * q.2)).sum +
          ((centered pts).map fun q : ℚ × ℚ => b * q.2 ^ 2).sum :=
      listSum_add _ _ _
    have f4 : ((centered pts).map fun q : ℚ × ℚ =>
        a * (q.1 * q.2) + b * q.2 ^ 2).sum = 0 := by
      apply listSum_zero_of
      intro q hq
      have := hcent q hq
      linear_combination q.2 * this
    unfold Suv Svv
    linarith [f1, f2, f3, f4]
  have hda : detA pts * a = 0 := by
    unfold detA
    linear_combination Svv pts * h1 - Suv pts * h2
  have hdb : detA pts * b = 0 := by
    unfold detA
    linear_combination Suu pts * h2 - Suv pts * h1
  rcases Decidable.not_and_iff_or_not.mp hab with ha | hb
  · exact (mul_eq_zero.mp hda).resolve_right ha
  · exact (mul_eq_zero.mp hdb).resolve_right hb

/-- A singular normal-equations matrix comes only from exactly collinear
input points. -/
theorem collinear_of_detA_eq_zero (pts : List Pt) (h : detA pts = 0) :
    CollinearPts pts := by
  have hq : detQ (centered pts) = 0 := h
  have hcross := cross2_eq_zero_of_detQ _ hq
  by_cases hall : ∀ q ∈ centered pts, q = ((0 : ℚ), (0 : ℚ))
  · refine ⟨1, 0, x_mean pts, by simp, ?_⟩
    intro p hp
    have hcp : ((p.1 : ℚ) - x_mean pts, (p.2 : ℚ) - y_mean pts) ∈
        centered pts := by
      rw [centered]
      exact List.mem_map_of_mem _ hp
    have hz := hall _ hcp
    have h1 : (p.1 : ℚ) - x_mean pts = 0 := congrArg Prod.fst hz
    linarith [h1]
  · push_neg at hall
    obtain ⟨q0, hq0mem, hq0ne⟩ := hall
    refine ⟨q0.2, -q0.1, q0.2 * x_mean pts - q0.1 * y_mean pts, ?_, ?_⟩
    · rintro ⟨h1, h2⟩
      apply hq0ne
      have hfst : q0.1 = 0 := by linarith
      have : q0 = (q0.1, q0.2) := rfl
      rw [this, hfst, h1]
    · intro p hp
      have hcp : ((p.1 : ℚ) - x_mean pts, (p.2 : ℚ) - y_mean pts) ∈
          centered pts := by
        rw [centered]
        exact List.mem_map_of_mem _ hp
      have hc := hcross q0 hq0mem _ hcp
      unfold cross2 at hc
      simp only at hc
      linarith [hc]

/-- The squared-comparison residual test decides exactly the real
comparison `|sqrt dsq - sqrt rsq| > tol` the source performs. -/
theorem absSqrtSubGt_iff (dsq rsq tol : ℚ) (hd : 0 ≤ dsq) (hr : 0 ≤ rsq) :
    absSqrtSubGt dsq rsq tol = true ↔
      (tol : ℝ) < |Real.sqrt (dsq : ℝ) - Real.sqrt (rsq : ℝ)| := by
  unfold absSqrtSubGt
  by_cases ht : tol < 0
  · simp only [ht, if_true]
    constructor
    · intro _
      have htr : (tol : ℝ) < 0 := by exact_mod_cast ht
      exact lt_of_lt_of_le htr (abs_nonneg _)
    · intro _
      trivial
  · simp only [ht, if_false, decide_eq_true_eq]
    have htr : (0 : ℝ) ≤ (tol : ℝ) := by
      have h0 : (0 : ℚ) ≤ tol := le_of_not_lt ht
      exact_mod_cast h0
    have hdr : (0 : ℝ) ≤ (dsq : ℝ) := by exact_mod_cast hd
    have hrr : (0 : ℝ) ≤ (rsq : ℝ) := by exact_mod_cast hr
    have hx : 0 ≤ Real.sqrt (dsq : ℝ) := Real.sqrt_nonneg _
    have hy : 0 ≤ Real.sqrt (rsq : ℝ) := Real.sqrt_nonneg _
    have hx2 : Real.sqrt (dsq : ℝ) ^ 2 = (dsq : ℝ) := Real.sq_sqrt hdr
    have hy2 : Real.sqrt (rsq : ℝ) ^ 2 = (rsq : ℝ) := Real.sq_sqrt hrr
    have hxy : Real.sqrt (dsq : ℝ) * Real.sqrt (rsq : ℝ) =
        Real.sqrt ((dsq : ℝ) * (rsq : ℝ)) := (Real.sqrt_mul hdr _).symm
    have hs0 : 0 ≤ Real.sqrt ((dsq : ℝ) * (rsq : ℝ)) := Real.sqrt_nonneg _
    have hs2 : Real.sqrt ((dsq : ℝ) * (rsq : ℝ)) ^ 2 = (dsq : ℝ) * (rsq : ℝ) :=
      Real.sq_sqrt (mul_nonneg hdr hrr)
    have step1 : ((tol : ℝ) < |Real.sqrt (dsq : ℝ) - Real.sqrt (rsq : ℝ)|) ↔
        (tol : ℝ) ^ 2 < (Real.sqrt (dsq : ℝ) - Real.sqrt (rsq : ℝ)) ^ 2 := by
      rw [← sq_abs (Real.sqrt (dsq : ℝ) - Real.sqrt (rsq : ℝ))]
      exact (pow_lt_pow_iff_left₀ htr (abs_nonneg _) two_ne_zero).symm
    have hexp : (Real.sqrt (dsq : ℝ) - Real.sqrt (rsq : ℝ)) ^ 2 =
        (dsq : ℝ) + (rsq : ℝ) - 2 * Real.sqrt ((dsq : ℝ) * (rsq : ℝ)) := by
      have hr2 : (Real.sqrt (dsq : ℝ) - Real.sqrt (rsq : ℝ)) ^ 2 =
          Real.sqrt (dsq : ℝ) ^ 2 + Real.sqrt (rsq : ℝ) ^ 2 -
            2 * (Real.sqrt (dsq : ℝ) * Real.sqrt (rsq : ℝ)) := by ring
      rw [hr2, hx2, hy2, hxy]
    rw [step1, hexp]
    constructor
    · rintro ⟨hA, hB⟩
      have hAr : (0 : ℝ) < (dsq : ℝ) + (rsq : ℝ) - (tol : ℝ) ^ 2 := by
        exact_mod_cast hA
      have hBr : (2 * Real.sqrt ((dsq : ℝ) * (rsq : ℝ))) ^ 2 <
          ((dsq : ℝ) + (rsq : ℝ) - (tol : ℝ) ^ 2) ^ 2 := by
        have h4 : ((4 * dsq * rsq : ℚ) : ℝ) <
            (((dsq + rsq - tol ^ 2) ^ 2 : ℚ) : ℝ) := by exact_mod_cast hB
        push_cast at h4
        nlinarith [hs2, h4]
      have hBlt := (pow_lt_pow_iff_left₀ (by positivity) (le_of_lt hAr)
        two_ne_zero).mp hBr
      linarith
    · intro hlt
      have hBA : 2 * Real.sqrt ((dsq : ℝ) * (rsq : ℝ)) <
          (dsq : ℝ) + (rsq : ℝ) - (tol : ℝ) ^ 2 := by linarith
      have hAr : (0 : ℝ) < (dsq : ℝ) + (rsq : ℝ) - (tol : ℝ) ^ 2 := by
        have h2s : 0 ≤ 2 * Real.sqrt ((dsq : ℝ) * (rsq : ℝ)) := by positivity
        linarith
      constructor
      · have : (0 : ℝ) < ((dsq + rsq - tol ^ 2 : ℚ) : ℝ) := by
          push_cast
          linarith
        exact_mod_cast this
      · have hsq := pow_lt_pow_left₀ hBA (by positivity) (two_ne_zero)
        have h4 : (4 : ℝ) * ((dsq : ℝ) * (rsq : ℝ)) <
            ((dsq : ℝ) + (rsq : ℝ) - (tol : ℝ) ^ 2) ^ 2 := by
          nlinarith [hs2, hsq]
        have : ((4 * dsq * rsq : ℚ) : ℝ) <
            (((dsq + rsq - tol ^ 2) ^ 2 : ℚ) : ℝ) := by
          push_cast
          nlinarith [h4]
        exact_mod_cast this

/-- `Suu` is a sum of squares. -/
theorem Suu_nonneg (pts : List Pt) : 0 ≤ Suu pts :=
  listSum_nonneg fun _ _ => sq_nonneg _

/-- `Svv` is a sum of squares. -/
theorem Svv_nonneg (pts : List Pt) : 0 ≤ Svv pts :=
  listSum_nonneg fun _ _ => sq_nonneg _

/-- The fitted radius square is nonnegative. -/
theorem radiusSq_nonneg (pts : List Pt) : 0 ≤ radiusSq pts := by
  unfold radiusSq
  have h1 : 0 ≤ (Suu pts + Svv pts) / (pts.length : ℚ) :=
    div_nonneg (add_nonneg (Suu_nonneg pts) (Svv_nonneg pts))
      (Nat.cast_nonneg _)
  have h2 : 0 ≤ ucSol pts ^ 2 := sq_nonneg _
  have h3 : 0 ≤ vcSol pts ^ 2 := sq_nonneg _
  linarith

/-- Squared distances to the centre are nonnegative. -/
theorem distCq_nonneg (p : Pt) (c : ℚ × ℚ) : 0 ≤ distCq p c :=
  add_nonneg (sq_nonneg _) (sq_nonneg _)

/-- `fit_arc` returns `none` exactly on fewer than 3 points, exactly
collinear points (singular system), or a residual beyond the
tolerance. -/
theorem fit_arc_none_characterisation (pts : List Pt) (tol : ℚ) :
    fit_arc pts tol = none ↔
      pts.length < 3 ∨ CollinearPts pts ∨
        ∃ p ∈ pts, (tol : ℝ) <
          |Real.sqrt (distCq p (centerX pts, centerY pts) : ℝ) -
            Real.sqrt (radiusSq pts : ℝ)| := by
  unfold fit_arc
  by_cases h3 : pts.length < 3
  · simp [h3]
  · rw [if_neg h3]
    have hne : pts ≠ [] := by
      intro h
      rw [h] at h3
      simp at h3
    by_cases hdet : detA pts = 0
    · rw [if_pos hdet]
      constructor
      · intro _
        exact Or.inr (Or.inl (collinear_of_detA_eq_zero pts hdet))
      · intro _
        rfl
    · rw [if_neg hdet]
      by_cases hres : residualExceeds pts tol = true
      · rw [if_pos hres]
        constructor
        · intro _
          refine Or.inr (Or.inr ?_)
          rw [residualExceeds, List.any_eq_true] at hres
          obtain ⟨p, hp, habs⟩ := hres
          exact ⟨p, hp,
            (absSqrtSubGt_iff _ _ _ (distCq_nonneg _ _)
              (radiusSq_nonneg _)).mp habs⟩
        · intro _
          rfl
      · rw [if_neg hres]
        constructor
        · intro h
          exact absurd h (by simp)
        · rintro (h | h | h)
          · exact absurd h h3
          · exact absurd (detA_eq_zero_of_collinear pts hne h) hdet
          · exfalso
            apply hres
            obtain ⟨p, hp, habs⟩ := h
            rw [residualExceeds, List.any_eq_true]
            exact ⟨p, hp,
              (absSqrtSubGt_iff _ _ _ (distCq_nonneg _ _)
                (radiusSq_nonneg _)).mpr habs⟩

/-- What a successful `fit_arc` returns, in terms of the fitted
centre and the cross-product direction rule. -/
theorem fit_arc_some_eq (pts : List Pt) (tol : ℚ) (a : ArcFit)
    (h : fit_arc pts tol = some a) :
    a.endPt = pts.getLastD pt0 ∧
      a.iOff = centerX pts - ((pts.headD pt0).1 : ℚ) ∧
      a.jOff = centerY pts - ((pts.headD pt0).2 : ℚ) ∧
      (a.dir = Dir.g2 ↔ 0 < arcCross pts) ∧
      (a.dir = Dir.g3 ↔ arcCross pts ≤ 0) := by
  unfold fit_arc at h
  split at h
  · exact absurd h (by simp)
  · split at h
    · exact absurd h (by simp)
    · split at h
      · exact absurd h (by simp)
      · have ha := Option.some_inj.mp h
        subst ha
        refine ⟨rfl, rfl, rfl, ?_, ?_⟩
        · split_ifs with hc
          · simp [hc]
          · simp [hc]
        · split_ifs with hc
          · exact ⟨fun hd => absurd hd (by simp),
              fun hle => absurd hle (by omega)⟩
          · exact ⟨fun _ => by omega, fun _ => rfl⟩

/-! ### Analyzer lemmas -/

/-- Linear distances are nonnegative. -/
theorem segDistR_nonneg (a b : ℝ × ℝ) : 0 ≤ segDistR a b :=
  Real.sqrt_nonneg _

/-- Arc distances are nonnegative. -/
theorem arcDistR_nonneg (a b : ℝ × ℝ) (i j : ℝ) : 0 ≤ arcDistR a b i j := by
  unfold arcDistR
  simp only
  split_ifs with h
  · have hch : 0 ≤ segDistR a b := segDistR_nonneg a b
    have hrad : 0 ≤ Real.sqrt (i ^ 2 + j ^ 2) := Real.sqrt_nonneg _
    have harg : 0 ≤ segDistR a b / 2 / Real.sqrt (i ^ 2 + j ^ 2) := by
      positivity
    have hasn : 0 ≤ Real.arcsin (segDistR a b / 2 / Real.sqrt (i ^ 2 + j ^ 2)) :=
      Real.arcsin_nonneg.mpr harg
    have : 0 ≤ 2 * Real.arcsin (segDistR a b / 2 / Real.sqrt (i ^ 2 + j ^ 2)) := by
      linarith
    exact mul_nonneg hrad this
  · exact segDistR_nonneg a b

/-- One analyzer step never decreases either accumulator. -/
theorem anaStep_mono (s : AnaState) (c : Cmd) :
    s.draw ≤ (anaStep s c).draw ∧ s.travel ≤ (anaStep s c).travel := by
  cases c with
  | comment => exact ⟨le_refl _, le_refl _⟩
  | penUp => exact ⟨le_refl _, le_refl _⟩
  | penDown => exact ⟨le_refl _, le_refl _⟩
  | linear x y f =>
    simp only [anaStep]
    split_ifs with hp
    · constructor
      · simp only
        have := segDistR_nonneg s.pos ((x : ℝ), (y : ℝ))
        linarith
      · exact le_refl _
    · constructor
      · exact le_refl _
      · simp only
        have := segDistR_nonneg s.pos ((x : ℝ), (y : ℝ))
        linarith
  | arcMove d x y i j f =>
    simp only [anaStep]
    split_ifs with hp
    · constructor
      · simp only
        have := arcDistR_nonneg s.pos ((x : ℝ), (y : ℝ)) (i : ℝ) (j : ℝ)
        linarith
      · exact le_refl _
    · constructor
      · exact le_refl _
      · simp only
        have := arcDistR_nonneg s.pos ((x : ℝ), (y : ℝ)) (i : ℝ) (j : ℝ)
        linarith

/-- Both accumulators of the analyzer fold stay nonnegative. -/
theorem anaFold_nonneg (cmds : List Cmd) :
    0 ≤ (cmds.foldl anaStep ⟨0, 0, (0, 0), false⟩).draw ∧
      0 ≤ (cmds.foldl anaStep ⟨0, 0, (0, 0), false⟩).travel := by
  apply foldl_inv (P := fun s : AnaState => 0 ≤ s.draw ∧ 0 ≤ s.travel)
  · exact ⟨le_refl _, le_refl _⟩
  · intro s c _ hs
    have := anaStep_mono s c
    exact ⟨le_trans hs.1 this.1, le_trans hs.2 this.2⟩

/-! ### Bound congruence for concrete traversal runs

Two (squared) distance bounds that admit exactly the same integer
squared distances drive the traversal identically.  This lets concrete
runs replace the bound `(5/(115/width))^2` by an equal-acting integer
bound on which kernel reduction works. -/

/-- Queries agree under equivalent bounds. -/
theorem queryKNear_congr (pts : List Pt) (p : Pt) (k : ℕ) (b1 b2 : ℚ)
    (h : ∀ d : ℤ, (d : ℚ) ≤ b1 ↔ (d : ℚ) ≤ b2) :
    queryKNear pts p k b1 = queryKNear pts p k b2 := by
  unfold queryKNear
  have hf : ((List.range pts.length).filter fun i =>
      decide ((distSqZ (pts.getD i pt0) p : ℚ) ≤ b1)) =
      ((List.range pts.length).filter fun i =>
        decide ((distSqZ (pts.getD i pt0) p : ℚ) ≤ b2)) := by
    apply List.filter_congr
    intro i _
    exact decide_eq_decide.mpr (h _)
  rw [hf]

/-- Neighbour selection agrees under equivalent bounds. -/
theorem findNext_congr (pts : List Pt) (vis : List ℕ) (cur : ℕ)
    (b1 b2 : ℚ) (h : ∀ d : ℤ, (d : ℚ) ≤ b1 ↔ (d : ℚ) ≤ b2) :
    findNext pts b1 vis cur = findNext pts b2 vis cur := by
  unfold findNext
  rw [queryKNear_congr pts _ 10 b1 b2 h]

/-- Walks agree under equivalent bounds. -/
theorem walk_congr (pts : List Pt) (b1 b2 : ℚ)
    (h : ∀ d : ℤ, (d : ℚ) ≤ b1 ↔ (d : ℚ) ≤ b2) :
    ∀ (fuel cur : ℕ) (vis : List ℕ),
      walk pts b1 fuel cur vis = walk pts b2 fuel cur vis := by
  intro fuel
  induction fuel with
  | zero => intro cur vis; rfl
  | succ fuel ih =>
    intro cur vis
    simp only [walk]
    rw [findNext_congr pts _ cur b1 b2 h]
    cases findNext pts b2 (cur :: vis) cur with
    | none => rfl
    | some nxt =>
      dsimp only
      rw [ih nxt (cur :: vis)]

/-- The island loop agrees under equivalent bounds. -/
theorem islandsLoop_congr (pts : List Pt) (b1 b2 : ℚ)
    (h : ∀ d : ℤ, (d : ℚ) ≤ b1 ↔ (d : ℚ) ≤ b2) :
    ∀ (idxs vis : List ℕ),
      islandsLoop pts b1 idxs vis = islandsLoop pts b2 idxs vis := by
  intro idxs
  induction idxs with
  | nil => intro vis; rfl
  | cons i rest ih =>
    intro vis
    simp only [islandsLoop]
    split_ifs with hiv
    · exact ih vis
    · rw [walk_congr pts b1 b2 h, ih]

/-- Island discovery agrees under equivalent bounds. -/
theorem islands_congr (pts : List Pt) (b1 b2 : ℚ)
    (h : ∀ d : ℤ, (d : ℚ) ≤ b1 ↔ (d : ℚ) ≤ b2) :
    islands pts b1 = islands pts b2 := by
  unfold islands
  exact islandsLoop_congr pts b1 b2 h _ _

/-- On the 33-wide diagonal raster the squared search bound
`(5/(115/33))^2 = 1089/529` admits exactly the integer squared distances
that `2` admits. -/
theorem diag_bound_iff (d : ℤ) :
    (d : ℚ) ≤ searchBoundSq diagImg ↔ (d : ℚ) ≤ 2 := by
  have hb : searchBoundSq diagImg = 1089 / 529 := by
    norm_num [searchBoundSq, diagImg, SEARCH_RADIUS_MM, PLOTTER_WIDTH_MM]
  rw [hb]
  have h1 : (d : ℚ) ≤ 1089 / 529 ↔ (d : ℚ) * 529 ≤ 1089 :=
    le_div_iff₀ (by norm_num)
  constructor
  · intro hd
    have hz : (d : ℚ) * 529 ≤ 1089 := h1.mp hd
    have hzz : d * 529 ≤ 1089 := by exact_mod_cast hz
    have : d ≤ 2 := by omega
    exact_mod_cast this
  · intro hd
    have hdz : d ≤ 2 := by exact_mod_cast hd
    rw [h1]
    have : d * 529 ≤ 1089 := by omega
    exact_mod_cast this

/-- When the flatness test fails at the top level, RDP collapses the
whole run to its two endpoints. -/
theorem rdp_flat (l : List Pt) (eps : ℚ) (h3 : 3 ≤ l.length)
    (hflat : scoreGtEps (pdDenSq (l.headD pt0) (l.getLastD pt0))
      (rdpStep l).2 eps = false) :
    ramer_douglas_peucker l eps = [l.headD pt0, l.getLastD pt0] := by
  unfold ramer_douglas_peucker
  obtain ⟨m, hm⟩ : ∃ m, l.length = m + 1 := ⟨l.length - 1, by omega⟩
  rw [hm]
  simp only [rdpFuel]
  rw [if_neg (by omega), hflat]
  simp

/-! ### Partiality of the source RDP recursion

`rdpRun` makes the call-depth budget explicit.  The next lemmas prove:
for `0 ≤ eps` the recursion completes within depth `length + 1` and the
totalisation `rdpFuel` computes exactly the source's value; for a
negative epsilon on a run whose interior points all lie on the chord
(split index `0`), the recursion exceeds every budget — the source
raises `RecursionError`. -/

/-- One-step unfolding of `rdpRun` (definitional). -/
theorem rdpRun_succ_unfold (fuel : ℕ) (l : List Pt) (eps : ℚ) :
    rdpRun (fuel + 1) l eps =
      if l.length < 3 then some l
      else if scoreGtEps (pdDenSq (l.headD pt0) (l.getLastD pt0))
          (rdpStep l).2 eps then
        match rdpRun fuel (l.take ((rdpStep l).1 + 1)) eps,
            rdpRun fuel (l.drop (rdpStep l).1) eps with
        | some r1, some r2 => some (r1.dropLast ++ r2)
        | _, _ => none
      else some [l.headD pt0, l.getLastD pt0] := rfl

/-- One-step unfolding of `rdpFuel` (definitional). -/
theorem rdpFuel_succ_unfold (fuel : ℕ) (l : List Pt) (eps : ℚ) :
    rdpFuel (fuel + 1) l eps =
      if l.length < 3 then l
      else if scoreGtEps (pdDenSq (l.headD pt0) (l.getLastD pt0))
          (rdpStep l).2 eps then
        (rdpFuel fuel (l.take ((rdpStep l).1 + 1)) eps).dropLast ++
          rdpFuel fuel (l.drop (rdpStep l).1) eps
      else [l.headD pt0, l.getLastD pt0] := rfl

/-- With a nonnegative epsilon, a zero maximum score never passes the
recursion test. -/
theorem scoreGtEps_zero_false (den : ℤ) (hden : 0 ≤ den) (eps : ℚ)
    (h0 : 0 ≤ eps) : scoreGtEps den 0 eps = false := by
  unfold scoreGtEps
  rw [if_neg (not_lt.mpr h0)]
  split_ifs with hd
  · rw [decide_eq_false_iff_not]
    push_cast
    intro hcon
    nlinarith [sq_nonneg eps]
  · rw [decide_eq_false_iff_not]
    push_cast
    intro hcon
    have hdq : (0 : ℚ) ≤ (den : ℚ) := by exact_mod_cast hden
    nlinarith [sq_nonneg eps]

/-- With a nonnegative epsilon, a passing recursion test forces a
positive split index (so both sub-lists shrink strictly). -/
theorem rdpStep_pos_of_gt (l : List Pt) (eps : ℚ) (h0 : 0 ≤ eps)
    (htest : scoreGtEps (pdDenSq (l.headD pt0) (l.getLastD pt0))
      (rdpStep l).2 eps = true) :
    1 ≤ (rdpStep l).1 := by
  by_contra hcon
  have hi0 : (rdpStep l).1 = 0 := by omega
  have hd0 : (rdpStep l).2 = 0 := (rdpStep_spec l).2.1 hi0
  rw [hd0, scoreGtEps_zero_false _ (pdDenSq_nonneg _ _) _ h0] at htest
  exact Bool.false_ne_true htest

/-- For `0 ≤ eps` the source recursion completes within call depth
`length + 1` and computes exactly the totalised value: the totalisation
is faithful on nonnegative epsilon. -/
theorem rdpRun_succ_eq (eps : ℚ) (h0 : 0 ≤ eps) :
    ∀ (fuel : ℕ) (l : List Pt), l.length ≤ fuel →
      rdpRun (fuel + 1) l eps = some (rdpFuel fuel l eps) := by
  intro fuel
  induction fuel with
  | zero =>
    intro l hl
    cases l with
    | nil => rfl
    | cons a t => simp at hl
  | succ g ih =>
    intro l hl
    rw [rdpRun_succ_unfold, rdpFuel_succ_unfold]
    by_cases h3 : l.length < 3
    · rw [if_pos h3, if_pos h3]
    · rw [if_neg h3, if_neg h3]
      by_cases htest : scoreGtEps (pdDenSq (l.headD pt0) (l.getLastD pt0))
          (rdpStep l).2 eps = true
      · rw [if_pos htest, if_pos htest]
        have hidx1 : 1 ≤ (rdpStep l).1 := rdpStep_pos_of_gt l eps h0 htest
        have hile : (rdpStep l).1 ≤ l.length - 2 := rdpStep_le l
        have htlen : (l.take ((rdpStep l).1 + 1)).length ≤ g := by
          rw [List.length_take]
          omega
        have hdlen : (l.drop (rdpStep l).1).length ≤ g := by
          rw [List.length_drop]
          omega
        rw [ih _ htlen, ih _ hdlen]
      · rw [if_neg htest, if_neg htest]

/-- With a negative epsilon and split index `0` (all interior points on
the chord), the source recursion calls itself on the identical list and
exceeds every call-depth budget: `RecursionError`. -/
theorem rdpRun_flat_neg_none (l : List Pt) (h3 : 3 ≤ l.length)
    (hstep : (rdpStep l).1 = 0) (eps : ℚ) (heps : eps < 0) :
    rdpDivergesAt l eps := by
  intro fuel
  induction fuel with
  | zero => rfl
  | succ g ih =>
    rw [rdpRun_succ_unfold]
    rw [if_neg (by omega)]
    rw [if_pos (show scoreGtEps (pdDenSq (l.headD pt0) (l.getLastD pt0))
        (rdpStep l).2 eps = true from by unfold scoreGtEps; rw [if_pos heps])]
    rw [hstep, List.drop_zero, ih]
    cases rdpRun g (l.take (0 + 1)) eps <;> rfl

/-- The point extraction of the diagonal raster. -/
theorem diag_pointList : pointList diagImg = diagPts := by decide

/-- Phase 1 on the diagonal raster finds exactly one island, in raster
order. -/
theorem diag_islands :
    islands diagPts (searchBoundSq diagImg) = [diagPts] := by
  rw [islands_congr diagPts (searchBoundSq diagImg) 2 diag_bound_iff]
  decide

/-- The flatness test on the diagonal island fails (all interior
distances are zero). -/
theorem diag_flat :
    scoreGtEps (pdDenSq (diagPts.headD pt0) (diagPts.getLastD pt0))
      (rdpStep diagPts).2 RDP_EPSILON = false := by
  have hst : rdpStep diagPts = (0, 0) := by decide
  have hden : pdDenSq (diagPts.headD pt0) (diagPts.getLastD pt0) = 200 := by
    decide
  rw [hst, hden]
  norm_num [scoreGtEps, RDP_EPSILON]

/-- RDP reduces the diagonal island to its two endpoints. -/
theorem diag_rdp :
    ramer_douglas_peucker diagPts RDP_EPSILON = [(0, 0), (10, 10)] := by
  rw [rdp_flat diagPts RDP_EPSILON (by decide) diag_flat]
  rfl

/-- The diagonal points have a singular normal-equations system. -/
theorem diag_detA : detA diagPts = 0 := by
  norm_num [detA, Suu, Svv, Suv, centered, x_mean, y_mean, diagPts]

/-- The arc fit on the diagonal segment fails (collinear points). -/
theorem diag_fit : fit_arc diagPts ARC_FITTING_TOLERANCE = none := by
  unfold fit_arc
  rw [if_neg (show ¬diagPts.length < 3 by decide), if_pos diag_detA]

/-- The full G-code run for the diagonal raster. -/
theorem diag_generate :
    generate_kdtree_gcode diagImg =
      [Cmd.comment, Cmd.penUp, Cmd.linear 0 0 (some 5000),
       Cmd.linear 0 0 (some 5000), Cmd.penDown,
       Cmd.linear (1150 / 33) (1150 / 11) (some 2000), Cmd.penUp,
       Cmd.linear 0 0 none] := by
  simp only [generate_kdtree_gcode]
  rw [diag_pointList]
  rw [if_neg (show ¬(diagPts.isEmpty = true) by decide)]
  rw [diag_islands]
  rw [show sortIslands [diagPts] = [diagPts] from by decide]
  simp only [List.flatMap_cons, List.flatMap_nil, List.append_nil]
  simp only [emitIsland]
  rw [diag_rdp]
  rw [if_neg (show ¬(List.isEmpty [((0 : ℤ), (0 : ℤ)), (10, 10)] = true) by decide)]
  simp only [List.length_cons, List.length_nil]
  norm_num
  rw [show List.range 1 = [0] from rfl]
  simp only [List.map_cons, List.map_nil]
  simp only [List.getElem?_cons_zero, Option.getD_some]
  simp only [emitSeg]
  rw [show segPoints diagPts (0 : Pt) ((10 : ℤ), (10 : ℤ)) = diagPts
    from by decide]
  rw [diag_fit]
  norm_num [diagImg, PLOTTER_WIDTH_MM, PLOTTER_HEIGHT_MM]

/-! ### Phase 2 sorting is a permutation; island nodup; anchor order -/

/-- Inserting an island permutes consing it. -/
theorem insertIsland_perm (a : List Pt) (l : List (List Pt)) :
    (insertIsland a l).Perm (a :: l) := by
  induction l with
  | nil => exact List.Perm.refl _
  | cons b bs ih =>
    simp only [insertIsland]
    split_ifs with h
    · exact (ih.cons b).trans (List.Perm.swap a b bs)
    · exact List.Perm.refl _

/-- Sorting the islands permutes them. -/
theorem sortIslands_perm (l : List (List Pt)) : (sortIslands l).Perm l := by
  suffices h : ∀ (t : List (List Pt)) (acc : List (List Pt)),
      (t.foldl (fun acc a => insertIsland a acc) acc).Perm (t ++ acc) by
    have := h l []
    simpa [sortIslands] using this
  intro t
  induction t with
  | nil => intro acc; simp
  | cons a t2 ih =>
    intro acc
    simp only [List.foldl_cons]
    refine (ih (insertIsland a acc)).trans ?_
    refine (List.Perm.append_left t2 (insertIsland_perm a acc)).trans ?_
    exact List.perm_middle

/-- Every island of phase 1 is duplicate-free when the point list is. -/
theorem islands_nodup (pts : List Pt) (bSq : ℚ) (hnd : pts.Nodup) :
    ∀ island ∈ islands pts bSq, island.Nodup := by
  obtain ⟨chains, h1, h2, h3, _, _⟩ :=
    islandsLoop_spec pts bSq (List.range pts.length) []
      fun i hi => List.mem_range.mp hi
  intro island hisl
  rw [islands, h1] at hisl
  obtain ⟨ch, hch, rfl⟩ := List.mem_map.mp hisl
  have hchsub : List.Sublist ch chains.flatten :=
    List.sublist_flatten_of_mem hch
  have hchnd : ch.Nodup := h2.sublist hchsub
  have hchlt : ∀ j ∈ ch, j < pts.length := fun j hj =>
    (h3 j (hchsub.mem hj)).1
  apply List.Nodup.map_on ?_ hchnd
  intro i hi j hj hij
  have hilt := hchlt i hi
  have hjlt := hchlt j hj
  rw [List.getD_eq_getElem pts pt0 hilt,
    List.getD_eq_getElem pts pt0 hjlt] at hij
  exact (List.Nodup.getElem_inj_iff hnd).mp hij

/-- In a duplicate-free list, positions found by `indexOf` are strictly
increasing along the list. -/
theorem nodup_pairwise_indexOf {α : Type _} [DecidableEq α] (l : List α)
    (h : l.Nodup) :
    l.Pairwise (fun a b => List.indexOf a l < List.indexOf b l) := by
  rw [List.pairwise_iff_getElem]
  intro i j hi hj hij
  rw [List.indexOf_getElem h i hi, List.indexOf_getElem h j hj]
  exact hij

/-- Consecutive elements of a subsequence of a duplicate-free list have
strictly increasing `indexOf` positions. -/
theorem sublist_indexOf_lt {α : Type _} [DecidableEq α] {s l : List α}
    (hs : List.Sublist s l) (h : l.Nodup) (d : α) (i : ℕ)
    (hi : i + 1 < s.length) :
    List.indexOf (s.getD i d) l < List.indexOf (s.getD (i + 1) d) l := by
  have hp := (nodup_pairwise_indexOf l h).sublist hs
  rw [List.pairwise_iff_getElem] at hp
  have hi0 : i < s.length := by omega
  rw [List.getD_eq_getElem s d hi0, List.getD_eq_getElem s d hi]
  exact hp i (i + 1) hi0 hi (by omega)

/-- The two lawful `BEq` instances on points (the product instance and
the one derived from decidable equality) compute the same `indexOf`. -/
theorem indexOf_pt_eq (a : Pt) (l : List Pt) :
    List.indexOf a l = @List.indexOf Pt instBEqOfDecidableEq a l := by
  unfold List.indexOf
  congr 1
  funext x
  rw [Bool.eq_iff_iff]
  simp [instBEqOfDecidableEq]

/-- Membership bound for `indexOf` under the product instance. -/
theorem indexOf_pt_lt_length (a : Pt) (l : List Pt) (h : a ∈ l) :
    List.indexOf a l < l.length := by
  rw [indexOf_pt_eq]
  exact List.indexOf_lt_length.mpr h

/-- For any island of the pipeline: the island is duplicate-free, the
positions of consecutive RDP anchors in the raw island are strictly
increasing (so the index-swapping fallback never fires), and every
segment handed to `fit_arc` has at least 2 points. -/
theorem island_segment_spec (img : Image) (island : List Pt)
    (hmem : island ∈ sortIslands
      (islands (pointList img) (searchBoundSq img)))
    (i : ℕ)
    (hi : i + 1 < (ramer_douglas_peucker island RDP_EPSILON).length) :
    island.Nodup ∧
      List.indexOf
          ((ramer_douglas_peucker island RDP_EPSILON).getD i pt0) island <
        List.indexOf
          ((ramer_douglas_peucker island RDP_EPSILON).getD (i + 1) pt0)
          island ∧
      2 ≤ (segPoints island
        ((ramer_douglas_peucker island RDP_EPSILON).getD i pt0)
        ((ramer_douglas_peucker island RDP_EPSILON).getD (i + 1) pt0)).length := by
  have hmem2 : island ∈ islands (pointList img) (searchBoundSq img) :=
    (sortIslands_perm _).mem_iff.mp hmem
  have hnd : island.Nodup :=
    islands_nodup _ _ (pointList_nodup img) island hmem2
  have hsub : List.Sublist (ramer_douglas_peucker island RDP_EPSILON) island :=
    rdpFuel_sublist _ _ _
  have hlt0 := sublist_indexOf_lt hsub hnd pt0 i hi
  have hlt : List.indexOf
      ((ramer_douglas_peucker island RDP_EPSILON).getD i pt0) island <
      List.indexOf
        ((ramer_douglas_peucker island RDP_EPSILON).getD (i + 1) pt0)
        island := by
    rw [indexOf_pt_eq, indexOf_pt_eq]
    exact hlt0
  refine ⟨hnd, hlt, ?_⟩
  have hmemB : (ramer_douglas_peucker island RDP_EPSILON).getD (i + 1) pt0 ∈
      island := by
    apply hsub.mem
    rw [List.getD_eq_getElem _ pt0 hi]
    exact List.getElem_mem hi
  have heilt : List.indexOf
      ((ramer_douglas_peucker island RDP_EPSILON).getD (i + 1) pt0) island <
      island.length := indexOf_pt_lt_length _ _ hmemB
  unfold segPoints
  dsimp only
  rw [if_neg (by omega), if_neg (by omega)]
  rw [List.length_take, List.length_drop]
  omega

/-! ### Degenerate input -/

/-- An all-white raster extracts no points. -/
theorem pointList_nil_of_blank (img : Image)
    (h : ∀ x y : ℕ, x < img.width → y < img.height → img.pixel x y ≠ 0) :
    pointList img = [] := by
  rw [List.eq_nil_iff_forall_not_mem]
  intro p hp
  rw [mem_pointList] at hp
  obtain ⟨x, y, hx, hy, hpix, _⟩ := hp
  exact h x y hx hy hpix

/-- On an empty point list the generator emits exactly pen-up and the
move to the origin. -/
theorem generate_blank (img : Image)
    (h : ∀ x y : ℕ, x < img.width → y < img.height → img.pixel x y ≠ 0) :
    generate_kdtree_gcode img = [Cmd.penUp, Cmd.linear 0 0 none] := by
  simp only [generate_kdtree_gcode]
  rw [pointList_nil_of_blank img h]
  rfl

/-- The analyzer on the trivial program reports no drawing, no travel,
efficiency zero. -/
theorem analyze_trivial :
    (analyze_gcode [Cmd.penUp, Cmd.linear 0 0 none]).draw_dist = 0 ∧
      (analyze_gcode [Cmd.penUp, Cmd.linear 0 0 none]).travel_dist = 0 ∧
      (analyze_gcode [Cmd.penUp, Cmd.linear 0 0 none]).efficiency = 0 := by
  have hfold : ([Cmd.penUp, Cmd.linear 0 0 none].foldl anaStep
      ⟨0, 0, (0, 0), false⟩) = ⟨0, 0, (0, 0), false⟩ := by
    simp only [List.foldl_cons, List.foldl_nil, anaStep]
    norm_num [segDistR]
  unfold analyze_gcode
  rw [hfold]
  norm_num

/-- A concrete successful arc fit: three points of the unit circle
centred at `(1, 0)`; the code's (sign-flipped) normal equations place
the fitted centre at `(1, 2/3)`, within tolerance 1. -/
theorem arcPts_fit :
    fit_arc arcPts 1 = some ⟨(2, 0), 1, 2 / 3, Dir.g3⟩ := by
  have hdet : detA arcPts = 4 / 3 := by
    norm_num [detA, Suu, Svv, Suv, centered, x_mean, y_mean, arcPts]
  have hcx : centerX arcPts = 1 := by
    norm_num [centerX, ucSol, Bvec1, Bvec2, detA, Suu, Svv, Suv, Suuu, Svvv,
      Suvv, Svuu, x_mean, y_mean, centered, arcPts]
  have hcy : centerY arcPts = 2 / 3 := by
    norm_num [centerY, vcSol, Bvec1, Bvec2, detA, Suu, Svv, Suv, Suuu, Svvv,
      Suvv, Svuu, x_mean, y_mean, centered, arcPts]
  have hrad : radiusSq arcPts = 1 := by
    norm_num [radiusSq, ucSol, vcSol, Bvec1, Bvec2, detA, Suu, Svv, Suv, Suuu,
      Svvv, Suvv, Svuu, x_mean, y_mean, centered, arcPts]
  have hres : residualExceeds arcPts 1 = false := by
    unfold residualExceeds
    rw [hcx, hcy, hrad]
    norm_num [arcPts, absSqrtSubGt, distCq]
  unfold fit_arc
  rw [if_neg (show ¬arcPts.length < 3 by decide),
    if_neg (by rw [hdet]; norm_num), if_neg (by rw [hres]; simp)]
  have hcross : arcCross arcPts = -2 := by decide
  rw [hcx, hcy, hcross]
  norm_num [arcPts, pt0]

/-- Phase 2 keeps the single diagonal island as is. -/
theorem diag_sort : sortIslands [diagPts] = [diagPts] := by decide

/-! ## Claim theorems -/

/-- Claim C1: for every input raster, the islands produced by the
traversal phase of `generate_kdtree_gcode` form an exact partition of the
extracted point set — their concatenation is a permutation of
`point_list` (so every ink point appears in exactly one island, exactly
once, and islands contain nothing else), and the extracted point list
itself has no duplicates. -/
theorem claim_C1_islands_partition (img : Image) :
    ((islands (pointList img) (searchBoundSq img)).flatten).Perm
        (pointList img) ∧
      (pointList img).Nodup :=
  ⟨islands_flatten_perm _ _, pointList_nodup img⟩

/-- Counterexample to C2 as stated (quantifying over every epsilon): on
three collinear points with epsilon `-1` the source recursion diverges
(`RecursionError`), so there is no output at all, let alone a
subsequence with preserved endpoints. -/
theorem claim_C2_counterexample :
    collinear3 ≠ [] ∧ rdpDivergesAt collinear3 (-1) :=
  ⟨by decide,
    rdpRun_flat_neg_none collinear3 (by decide) (by decide) (-1)
      (by norm_num)⟩

/-- Claim C2 (amended: epsilon restricted to nonnegative, the region
where the source recursion terminates — see `claim_C2_counterexample`):
for every non-empty point list and every `0 ≤ eps`, the recursion
completes within call depth `length + 1` with exactly the embedded
value, and the RDP output is a subsequence of the input, is nonempty,
and keeps the input's first and last points. -/
theorem claim_C2_rdp_subsequence (l : List Pt) (eps : ℚ) (h : l ≠ [])
    (h0 : 0 ≤ eps) :
    rdpRun (l.length + 1) l eps = some (ramer_douglas_peucker l eps) ∧
      List.Sublist (ramer_douglas_peucker l eps) l ∧
      ramer_douglas_peucker l eps ≠ [] ∧
      (ramer_douglas_peucker l eps).headD pt0 = l.headD pt0 ∧
      (ramer_douglas_peucker l eps).getLastD pt0 = l.getLastD pt0 :=
  ⟨rdpRun_succ_eq eps h0 l.length l le_rfl, rdpFuel_sublist _ _ _,
    (rdpFuel_ends _ _ _ h).1, (rdpFuel_ends _ _ _ h).2.1,
    (rdpFuel_ends _ _ _ h).2.2⟩

/-- Witness for C2 at a concrete three-point input and epsilon 1. -/
theorem claim_C2_rdp_subsequence_witness :
    rdpRun (arcPts.length + 1) arcPts 1 =
        some (ramer_douglas_peucker arcPts 1) ∧
      List.Sublist (ramer_douglas_peucker arcPts 1) arcPts ∧
      ramer_douglas_peucker arcPts 1 ≠ [] ∧
      (ramer_douglas_peucker arcPts 1).headD pt0 = arcPts.headD pt0 ∧
      (ramer_douglas_peucker arcPts 1).getLastD pt0 = arcPts.getLastD pt0 :=
  claim_C2_rdp_subsequence arcPts 1 (by decide) (by norm_num)

/-- Counterexample to C3 as stated (quantifying over every tolerance
pair `eps1 ≤ eps2`): at `eps1 = -1 ≤ 0 = eps2` on four collinear
points, the run at `eps2 = 0` terminates with the two endpoints but the
run at `eps1 = -1` diverges (`RecursionError`), so no length comparison
exists. -/
theorem claim_C3_counterexample :
    (-1 : ℚ) ≤ 0 ∧
      rdpRun (collinear4.length + 1) collinear4 0 = some [(0, 0), (3, 3)] ∧
      rdpDivergesAt collinear4 (-1) := by
  refine ⟨by norm_num, ?_,
    rdpRun_flat_neg_none collinear4 (by decide) (by decide) (-1)
      (by norm_num)⟩
  rw [rdpRun_succ_eq 0 le_rfl collinear4.length collinear4 le_rfl]
  congr 1
  have hflat : scoreGtEps
      (pdDenSq (collinear4.headD pt0) (collinear4.getLastD pt0))
      (rdpStep collinear4).2 0 = false := by
    have hst : rdpStep collinear4 = (0, 0) := by decide
    have hden : pdDenSq (collinear4.headD pt0) (collinear4.getLastD pt0) =
        18 := by decide
    rw [hst, hden]
    norm_num [scoreGtEps]
  have hcoll := rdp_flat collinear4 0 (by decide) hflat
  rw [show rdpFuel collinear4.length collinear4 0 =
      ramer_douglas_peucker collinear4 0 from rfl, hcoll]
  rfl

/-- Claim C3 (amended: tolerances restricted to `0 ≤ eps1 ≤ eps2`, the
region where the source recursion terminates — see
`claim_C3_counterexample`): both runs complete with the embedded
values, and enlarging the tolerance never lengthens the RDP output. -/
theorem claim_C3_rdp_monotone (l : List Pt) (e1 e2 : ℚ) (h0 : 0 ≤ e1)
    (h : e1 ≤ e2) :
    rdpRun (l.length + 1) l e1 = some (ramer_douglas_peucker l e1) ∧
      rdpRun (l.length + 1) l e2 = some (ramer_douglas_peucker l e2) ∧
      (ramer_douglas_peucker l e2).length ≤
        (ramer_douglas_peucker l e1).length :=
  ⟨rdpRun_succ_eq e1 h0 l.length l le_rfl,
    rdpRun_succ_eq e2 (le_trans h0 h) l.length l le_rfl,
    rdpFuel_mono _ _ _ _ h⟩

/-- Witness for C3 at a concrete input and tolerances `1 ≤ 2`. -/
theorem claim_C3_rdp_monotone_witness :
    rdpRun (arcPts.length + 1) arcPts 1 =
        some (ramer_douglas_peucker arcPts 1) ∧
      rdpRun (arcPts.length + 1) arcPts 2 =
        some (ramer_douglas_peucker arcPts 2) ∧
      (ramer_douglas_peucker arcPts 2).length ≤
        (ramer_douglas_peucker arcPts 1).length :=
  claim_C3_rdp_monotone arcPts 1 2 (by norm_num) (by norm_num)

/-- Claim C4: `fit_arc` returns `none` exactly when the input has fewer
than 3 points, or the points are exactly collinear (the 2×2
normal-equations system is singular), or some input point's distance to
the fitted centre differs from the fitted radius by more than the
tolerance; in every other case it returns a fit (and, being a total
function, never raises an error). -/
theorem claim_C4_fit_arc_none_iff (pts : List Pt) (tol : ℚ) :
    fit_arc pts tol = none ↔
      pts.length < 3 ∨ CollinearPts pts ∨
        ∃ p ∈ pts, (tol : ℝ) <
          |Real.sqrt (distCq p (centerX pts, centerY pts) : ℝ) -
            Real.sqrt (radiusSq pts : ℝ)| :=
  fit_arc_none_characterisation pts tol

/-- Claim C5: whenever `fit_arc` succeeds, the result is the last input
point, the fitted centre as an offset from the first input point, and a
direction that is `G2` exactly for a positive cross product and `G3`
exactly for a nonpositive one. -/
theorem claim_C5_fit_arc_success (pts : List Pt) (tol : ℚ) (a : ArcFit)
    (h : fit_arc pts tol = some a) :
    a.endPt = pts.getLastD pt0 ∧
      a.iOff = centerX pts - ((pts.headD pt0).1 : ℚ) ∧
      a.jOff = centerY pts - ((pts.headD pt0).2 : ℚ) ∧
      (a.dir = Dir.g2 ↔ 0 < arcCross pts) ∧
      (a.dir = Dir.g3 ↔ arcCross pts ≤ 0) :=
  fit_arc_some_eq pts tol a h

/-- Witness for C5 at a concrete successful fit. -/
theorem claim_C5_fit_arc_success_witness :
    (ArcFit.mk (2, 0) 1 (2 / 3) Dir.g3).endPt = arcPts.getLastD pt0 ∧
      (ArcFit.mk (2, 0) 1 (2 / 3) Dir.g3).iOff =
        centerX arcPts - ((arcPts.headD pt0).1 : ℚ) ∧
      (ArcFit.mk (2, 0) 1 (2 / 3) Dir.g3).jOff =
        centerY arcPts - ((arcPts.headD pt0).2 : ℚ) ∧
      ((ArcFit.mk (2, 0) 1 (2 / 3) Dir.g3).dir = Dir.g2 ↔
        0 < arcCross arcPts) ∧
      ((ArcFit.mk (2, 0) 1 (2 / 3) Dir.g3).dir = Dir.g3 ↔
        arcCross arcPts ≤ 0) :=
  claim_C5_fit_arc_success arcPts 1 ⟨(2, 0), 1, 2 / 3, Dir.g3⟩ arcPts_fit

/-- Claim C6: the efficiency reported by `analyze_gcode` is
`draw / (draw + travel) * 100` when the total distance is positive and
`0` when it is zero, and always lies between 0 and 100. -/
theorem claim_C6_efficiency (cmds : List Cmd) :
    (0 < (analyze_gcode cmds).draw_dist + (analyze_gcode cmds).travel_dist →
      (analyze_gcode cmds).efficiency =
        (analyze_gcode cmds).draw_dist /
          ((analyze_gcode cmds).draw_dist +
            (analyze_gcode cmds).travel_dist) * 100) ∧
      ((analyze_gcode cmds).draw_dist + (analyze_gcode cmds).travel_dist = 0 →
        (analyze_gcode cmds).efficiency = 0) ∧
      0 ≤ (analyze_gcode cmds).efficiency ∧
      (analyze_gcode cmds).efficiency ≤ 100 := by
  obtain ⟨hd, ht⟩ := anaFold_nonneg cmds
  unfold analyze_gcode
  dsimp only
  refine ⟨?_, ?_, ?_, ?_⟩
  · intro hpos
    rw [if_pos hpos]
  · intro h0
    rw [if_neg (by rw [h0]; exact lt_irrefl 0)]
  · split_ifs with hpos
    · exact mul_nonneg (div_nonneg hd (le_of_lt hpos)) (by norm_num)
    · exact le_refl 0
  · split_ifs with hpos
    · have hle : (cmds.foldl anaStep ⟨0, 0, (0, 0), false⟩).draw ≤
          (cmds.foldl anaStep ⟨0, 0, (0, 0), false⟩).draw +
            (cmds.foldl anaStep ⟨0, 0, (0, 0), false⟩).travel := by
        linarith
      have hq : (cmds.foldl anaStep ⟨0, 0, (0, 0), false⟩).draw /
          ((cmds.foldl anaStep ⟨0, 0, (0, 0), false⟩).draw +
            (cmds.foldl anaStep ⟨0, 0, (0, 0), false⟩).travel) ≤ 1 :=
        (div_le_one hpos).mpr hle
      linarith
    · norm_num

/-- Witness for C6 at the empty command list. -/
theorem claim_C6_efficiency_witness :
    (0 < (analyze_gcode []).draw_dist + (analyze_gcode []).travel_dist →
      (analyze_gcode []).efficiency =
        (analyze_gcode []).draw_dist /
          ((analyze_gcode []).draw_dist +
            (analyze_gcode []).travel_dist) * 100) ∧
      ((analyze_gcode []).draw_dist + (analyze_gcode []).travel_dist = 0 →
        (analyze_gcode []).efficiency = 0) ∧
      0 ≤ (analyze_gcode []).efficiency ∧
      (analyze_gcode []).efficiency ≤ 100 :=
  claim_C6_efficiency []

/-- Claim C7: an input image with no ink pixels yields exactly the
two-command program (pen up, move to origin), and the analyzer on that
program reports zero draw distance and efficiency 0. -/
theorem claim_C7_blank_raster (img : Image)
    (h : ∀ x y : ℕ, x < img.width → y < img.height → img.pixel x y ≠ 0) :
    generate_kdtree_gcode img = [Cmd.penUp, Cmd.linear 0 0 none] ∧
      (analyze_gcode (generate_kdtree_gcode img)).draw_dist = 0 ∧
      (analyze_gcode (generate_kdtree_gcode img)).efficiency = 0 := by
  have hg := generate_blank img h
  refine ⟨hg, ?_, ?_⟩ <;> rw [hg]
  · exact analyze_trivial.1
  · exact analyze_trivial.2.2

/-- Witness for C7 at a concrete all-white 1×1 raster. -/
theorem claim_C7_blank_raster_witness :
    generate_kdtree_gcode blankImg = [Cmd.penUp, Cmd.linear 0 0 none] ∧
      (analyze_gcode (generate_kdtree_gcode blankImg)).draw_dist = 0 ∧
      (analyze_gcode (generate_kdtree_gcode blankImg)).efficiency = 0 :=
  claim_C7_blank_raster blankImg (by intro x y _ _; simp [blankImg])

/-- Claim C8: `generate_kdtree_gcode` is deterministic — equal inputs
(with the fixed configuration constants baked into the embedding)
produce identical command sequences. -/
theorem claim_C8_deterministic (img1 img2 : Image) (h : img1 = img2) :
    generate_kdtree_gcode img1 = generate_kdtree_gcode img2 := by
  rw [h]

/-- Witness for C8 at a concrete raster. -/
theorem claim_C8_deterministic_witness :
    generate_kdtree_gcode blankImg = generate_kdtree_gcode blankImg :=
  claim_C8_deterministic blankImg blankImg rfl

/-- Claim C9: on the 11-point collinear diagonal raster, the traversal
finds exactly one island (the 11 points in order), RDP reduces it to its
2 endpoints, the arc fit fails on the collinear segment, and the emitted
program is exactly: comment, pen-up, home, travel to the start,
pen-down, one linear draw move, pen-up, return home. -/
theorem claim_C9_diagonal_scenario :
    pointList diagImg = diagPts ∧
      islands diagPts (searchBoundSq diagImg) = [diagPts] ∧
      ramer_douglas_peucker diagPts RDP_EPSILON = [(0, 0), (10, 10)] ∧
      fit_arc diagPts ARC_FITTING_TOLERANCE = none ∧
      generate_kdtree_gcode diagImg =
        [Cmd.comment, Cmd.penUp, Cmd.linear 0 0 (some 5000),
         Cmd.linear 0 0 (some 5000), Cmd.penDown,
         Cmd.linear (1150 / 33) (1150 / 11) (some 2000), Cmd.penUp,
         Cmd.linear 0 0 none] :=
  ⟨diag_pointList, diag_islands, diag_rdp, diag_fit, diag_generate⟩

/-- Claim C10: for every island of the pipeline and every pair of
consecutive RDP anchors, the island is duplicate-free, the position of
the first anchor in the island is strictly below the position of the
second (so the index-swapping fallback branch is unreachable), and the
segment handed to `fit_arc` has at least 2 points. -/
theorem claim_C10_segment_indices (img : Image) (island : List Pt)
    (hmem : island ∈ sortIslands
      (islands (pointList img) (searchBoundSq img)))
    (i : ℕ)
    (hi : i + 1 < (ramer_douglas_peucker island RDP_EPSILON).length) :
    island.Nodup ∧
      List.indexOf
          ((ramer_douglas_peucker island RDP_EPSILON).getD i pt0) island <
        List.indexOf
          ((ramer_douglas_peucker island RDP_EPSILON).getD (i + 1) pt0)
          island ∧
      2 ≤ (segPoints island
        ((ramer_douglas_peucker island RDP_EPSILON).getD i pt0)
        ((ramer_douglas_peucker island RDP_EPSILON).getD (i + 1) pt0)).length :=
  island_segment_spec img island hmem i hi

/-- Witness for C10 at the diagonal raster's single island and its
single anchor pair. -/
theorem claim_C10_segment_indices_witness :
    diagPts.Nodup ∧
      List.indexOf
          ((ramer_douglas_peucker diagPts RDP_EPSILON).getD 0 pt0) diagPts <
        List.indexOf
          ((ramer_douglas_peucker diagPts RDP_EPSILON).getD 1 pt0) diagPts ∧
      2 ≤ (segPoints diagPts
        ((ramer_douglas_peucker diagPts RDP_EPSILON).getD 0 pt0)
        ((ramer_douglas_peucker diagPts RDP_EPSILON).getD 1 pt0)).length :=
  claim_C10_segment_indices diagImg diagPts
    (by rw [diag_pointList, diag_islands, diag_sort];
        exact List.mem_singleton.mpr rfl)
    0 (by rw [diag_rdp]; decide)

end Cnc
